import Mathlib

/-!
# CipherMind (Mastermind) — guess evaluation, guess validation and the session loop

Shallow embedding of `main.go`.

* A Go `string` is its sequence of bytes, `GoString := List Nat` (a byte is a
  natural number below 256; no definition below depends on that bound, so the
  results hold for every list).  `len` is `List.length`, `s[i]` is `s[i]?`
  (`none` stands for the run-time panic of an index out of range).
* Go `int` counters (`attempts`, `exactMatches`, ...) are natural numbers: they
  start at 0, only `++` is applied to them, and they stay below 11.
* Standard input is the list of its lines: the pieces between the newline
  bytes, without them (a last piece with no newline after it is a line when it
  is not empty).  Each `scanner.Scan()` of `Run` takes the head of the list; it
  fails on the empty list and on a line of `MaxScanTokenSize` bytes or more,
  which the default buffer of a `bufio.Scanner` cannot hold.  `Run` returns
  what it printed as a list of events.
-/

namespace CipherMind

/-- Go `string`: the sequence of its bytes. -/
abbrev GoString := List Nat

/-- Constant `CodeLength`. -/
def CodeLength : Nat := 4

/-- Constant `MaxAttempts`. -/
def MaxAttempts : Nat := 10

/-- Constant `AvailableSymbols = "ABCDEF"`. -/
def AvailableSymbols : GoString := [0x41, 0x42, 0x43, 0x44, 0x45, 0x46]

/-- Type `GuessResult`: a guess and its feedback. -/
structure GuessResult where
  guess : GoString
  exactMatches : Nat
  partialMatches : Nat
deriving DecidableEq, Repr

/-- Type `Game`: the state of one session. -/
structure Game where
  secretCode : GoString
  attempts : Nat
  maxAttempts : Nat
  guessHistory : List GuessResult
deriving DecidableEq, Repr

/-- Local variables of `evaluateGuess`. -/
structure EvalState where
  exactMatches : Nat
  partialMatches : Nat
  secretUsed : List Bool
  guessUsed : List Bool
deriving DecidableEq, Repr

/-- First loop of `evaluateGuess` (`for i := 0; i < CodeLength; i++`), run over
the indices that are still to come. -/
def exactPass (secret guess : GoString) : EvalState → List Nat → Option EvalState
  | st, [] => some st
  | st, i :: rest =>
    match guess[i]?, secret[i]? with
    | some gi, some si =>
      if gi = si then
        exactPass secret guess
          { st with
            exactMatches := st.exactMatches + 1
            secretUsed := st.secretUsed.set i true
            guessUsed := st.guessUsed.set i true } rest
      else exactPass secret guess st rest
    | _, _ => none

/-- Inner loop of the second pass (`for j := 0; j < CodeLength; j++`) for the
guess position `i`; reaching a match ends the loop (`break`). -/
def partialScan (secret guess : GoString) (i : Nat) : EvalState → List Nat → Option EvalState
  | st, [] => some st
  | st, j :: rest =>
    match st.secretUsed[j]? with
    | none => none
    | some true => partialScan secret guess i st rest
    | some false =>
      match guess[i]?, secret[j]? with
      | some gi, some sj =>
        if gi = sj then
          some { st with
                 partialMatches := st.partialMatches + 1
                 secretUsed := st.secretUsed.set j true }
        else partialScan secret guess i st rest
      | _, _ => none

/-- Second loop of `evaluateGuess` (`for i := 0; i < CodeLength; i++`). -/
def partialPass (secret guess : GoString) : EvalState → List Nat → Option EvalState
  | st, [] => some st
  | st, i :: rest =>
    match st.guessUsed[i]? with
    | none => none
    | some true => partialPass secret guess st rest
    | some false =>
      match partialScan secret guess i st (List.range CodeLength) with
      | none => none
      | some st1 => partialPass secret guess st1 rest

/-- Method `evaluateGuess`; `none` is the panic of an index out of range. -/
def evaluateGuess (g : Game) (guess : GoString) : Option GuessResult :=
  let st0 : EvalState :=
    { exactMatches := 0
      partialMatches := 0
      secretUsed := List.replicate CodeLength false
      guessUsed := List.replicate CodeLength false }
  match exactPass g.secretCode guess st0 (List.range CodeLength) with
  | none => none
  | some st1 =>
    match partialPass g.secretCode guess st1 (List.range CodeLength) with
    | none => none
    | some st2 =>
      some { guess := guess
             exactMatches := st2.exactMatches
             partialMatches := st2.partialMatches }

/-! ## Library functions used by `validateGuess`

`strings.TrimSpace`, `strings.ToUpper`, `strings.ContainsRune` and the `range`
loop over a string belong to the Go standard library; they are modelled here
on byte strings after their documented behaviour.  Runes are natural numbers.
The only part left open is the Unicode case table for runes above U+007F,
which every definition takes as the parameter `upperCase`. -/

/-- Constant `utf8.RuneError` (U+FFFD). -/
def RuneError : Nat := 0xFFFD

/-- Constant `utf8.RuneSelf`: bytes below it are single-byte runes. -/
def RuneSelf : Nat := 0x80

/-- Table `first` of package `utf8`, the length part: the number of bytes of
the sequence a leading byte `0xC2..0xF4` announces. -/
def seqLen (s0 : Nat) : Nat := if s0 < 0xE0 then 2 else if s0 < 0xF0 then 3 else 4

/-- Table `acceptRanges` of package `utf8`: the lowest second byte a leading
byte accepts. -/
def acceptLo (s0 : Nat) : Nat := if s0 = 0xE0 then 0xA0 else if s0 = 0xF0 then 0x90 else 0x80

/-- Table `acceptRanges` of package `utf8`: the highest second byte a leading
byte accepts. -/
def acceptHi (s0 : Nat) : Nat := if s0 = 0xED then 0x9F else if s0 = 0xF4 then 0x8F else 0xBF

/-- Function `utf8.DecodeRuneInString`: the first rune of the string and its
width in bytes; `(RuneError, 1)` for an ill-formed sequence, `(RuneError, 0)`
for the empty string.  The masks and shifts of the Go code are written with
`%` and `*`. -/
def DecodeRuneInString : GoString → Nat × Nat
  | [] => (RuneError, 0)
  | s0 :: rest =>
    if s0 < RuneSelf then (s0, 1)
    else if s0 < 0xC2 ∨ 0xF4 < s0 then (RuneError, 1)
    else if rest.length + 1 < seqLen s0 then (RuneError, 1)
    else
      match rest with
      | [] => (RuneError, 1)
      | s1 :: rest1 =>
        if s1 < acceptLo s0 ∨ acceptHi s0 < s1 then (RuneError, 1)
        else if seqLen s0 ≤ 2 then (s0 % 32 * 64 + s1 % 64, 2)
        else
          match rest1 with
          | [] => (RuneError, 1)
          | s2 :: rest2 =>
            if s2 < 0x80 ∨ 0xBF < s2 then (RuneError, 1)
            else if seqLen s0 ≤ 3 then (s0 % 16 * 4096 + s1 % 64 * 64 + s2 % 64, 3)
            else
              match rest2 with
              | [] => (RuneError, 1)
              | s3 :: _ =>
                if s3 < 0x80 ∨ 0xBF < s3 then (RuneError, 1)
                else (s0 % 8 * 262144 + s1 % 64 * 4096 + s2 % 64 * 64 + s3 % 64, 4)

/-- Function `utf8.RuneStart`: the byte is not a continuation byte. -/
def RuneStart (b : Nat) : Bool := !(decide (0x80 ≤ b) && decide (b ≤ 0xBF))

/-- Backward search of `utf8.DecodeLastRuneInString`
(`for start--; start >= lim; start--`); the argument and the result are
`start + 1`. -/
def lastRuneLoop (s : GoString) (lim : Nat) : Nat → Nat
  | 0 => 0
  | start + 1 =>
    if start < lim then start + 1
    else if RuneStart (s.getD start 0) then start + 1
    else lastRuneLoop s lim start

/-- Function `utf8.DecodeLastRuneInString`: the last rune of the string and its
width in bytes. -/
def DecodeLastRuneInString (s : GoString) : Nat × Nat :=
  if s.length = 0 then (RuneError, 0)
  else
    let last := s.getD (s.length - 1) 0
    if last < RuneSelf then (last, 1)
    else
      let start := lastRuneLoop s (s.length - 4) (s.length - 1) - 1
      let d := DecodeRuneInString (s.drop start)
      if start + d.2 ≠ s.length then (RuneError, 1) else d

/-- Function `utf8.AppendRune` on an empty buffer: the UTF-8 encoding of a
rune; surrogates and values above U+10FFFF are encoded as `RuneError`. -/
def EncodeRune (r : Nat) : GoString :=
  if r ≤ 0x7F then [r]
  else if r ≤ 0x7FF then [0xC0 + r / 64, 0x80 + r % 64]
  else if 0x10FFFF < r ∨ (0xD800 ≤ r ∧ r ≤ 0xDFFF) then [0xEF, 0xBF, 0xBD]
  else if r ≤ 0xFFFF then [0xE0 + r / 4096, 0x80 + r / 64 % 64, 0x80 + r % 64]
  else [0xF0 + r / 262144, 0x80 + r / 4096 % 64, 0x80 + r / 64 % 64, 0x80 + r % 64]

/-- The runes a `for _, c := range s` loop visits, in order; `fuel` bounds the
number of iterations (every iteration consumes at least one byte, so
`s.length` is enough). -/
def rangeRunes : Nat → GoString → List Nat
  | 0, _ => []
  | _ + 1, [] => []
  | fuel + 1, b :: rest =>
    let d := DecodeRuneInString (b :: rest)
    d.1 :: rangeRunes fuel ((b :: rest).drop d.2)

/-- Function `unicode.IsSpace`. -/
def IsSpace (r : Nat) : Bool :=
  if r ≤ 0xFF then
    r = 0x09 ∨ r = 0x0A ∨ r = 0x0B ∨ r = 0x0C ∨ r = 0x0D ∨ r = 0x20 ∨ r = 0x85 ∨ r = 0xA0
  else
    r = 0x1680 ∨ (0x2000 ≤ r ∧ r ≤ 0x200A) ∨ r = 0x2028 ∨ r = 0x2029 ∨ r = 0x202F ∨
      r = 0x205F ∨ r = 0x3000

/-- Function `strings.TrimLeftFunc` with `unicode.IsSpace`: leading white-space
runes removed. -/
def trimLeftSpace : Nat → GoString → GoString
  | 0, s => s
  | _ + 1, [] => []
  | fuel + 1, b :: rest =>
    let d := DecodeRuneInString (b :: rest)
    if IsSpace d.1 then trimLeftSpace fuel ((b :: rest).drop d.2) else b :: rest

/-- Function `strings.TrimRightFunc` with `unicode.IsSpace`: trailing
white-space runes removed, one `DecodeLastRuneInString` at a time, as
`lastIndexFunc` walks the string backwards. -/
def trimRightSpace : Nat → GoString → GoString
  | 0, s => s
  | fuel + 1, s =>
    if s.length = 0 then s
    else
      let d := DecodeLastRuneInString s
      if IsSpace d.1 then trimRightSpace fuel (s.take (s.length - d.2)) else s

/-- Function `strings.TrimSpace`: all leading and trailing white space, as
defined by Unicode, removed (the byte loops of the Go code for ASCII white
space give the same result as the rune loops they stand in for). -/
def TrimSpace (s : GoString) : GoString :=
  let t := trimLeftSpace s.length s
  trimRightSpace t.length t

/-- Function `unicode.ToUpper`; `upperCase` is its case table for the runes
above U+007F. -/
def unicodeToUpper (upperCase : Nat → Nat) (r : Nat) : Nat :=
  if r ≤ 0x7F then (if 0x61 ≤ r ∧ r ≤ 0x7A then r - 0x20 else r) else upperCase r

/-- Function `strings.Map`: every rune replaced by the encoding of its image. -/
def Map (mapping : Nat → Nat) (s : GoString) : GoString :=
  (rangeRunes s.length s).flatMap (fun c => EncodeRune (mapping c))

/-- Function `strings.ToUpper`: an all-ASCII string has its bytes `a`..`z`
mapped (and is returned as it is when it has none); any other string goes
through `strings.Map` with `unicode.ToUpper`. -/
def ToUpper (upperCase : Nat → Nat) (s : GoString) : GoString :=
  if s.all (fun c => decide (c < RuneSelf)) then
    if s.any (fun c => decide (0x61 ≤ c ∧ c ≤ 0x7A)) then
      s.map (fun c => if 0x61 ≤ c ∧ c ≤ 0x7A then c - 0x20 else c)
    else s
  else Map (unicodeToUpper upperCase) s

/-- Function `strings.ContainsRune`: the rune is one of the runes of `s`. -/
def ContainsRune (s : GoString) (r : Nat) : Bool :=
  (rangeRunes s.length s).contains r

/-- Function `utf8.RuneCountInString`: the number of characters of a string. -/
def RuneCountInString (s : GoString) : Nat := (rangeRunes s.length s).length

/-! ## `validateGuess` -/

/-- The two errors of `validateGuess`: `length` is
`"guess must be exactly 4 symbols"`, `invalidSymbol c` is
`"invalid symbol 'c'. Use only: ABCDEF"`. -/
inductive GuessError where
  | length
  | invalidSymbol (char : Nat)
deriving DecidableEq, Repr

deriving instance DecidableEq for Except

/-- Method `validateGuess`. -/
def validateGuess (upperCase : Nat → Nat) (input : GoString) : Except GuessError GoString :=
  let guess := ToUpper upperCase (TrimSpace input)
  if guess.length ≠ CodeLength then Except.error GuessError.length
  else
    match (rangeRunes guess.length guess).find?
        (fun char => !ContainsRune AvailableSymbols char) with
    | some char => Except.error (GuessError.invalidSymbol char)
    | none => Except.ok guess

/-! ## `Run` -/

/-- What `Run` writes to the terminal, one event per print statement (or
helper call); the decoration is left out.  `history` is a call of
`printGuessHistory` (which prints nothing for an empty history),
`encouragement` a call of `printEncouragement` (which picks its message at
random), `warning n` the line `Only n attempts remaining!`. -/
inductive Output where
  | welcome
  | prompt (attempt maxAttempts : Nat)
  | invalid (err : GuessError)
  | history (results : List GuessResult)
  | congratulations (secret : GoString) (attempts : Nat)
  | encouragement (exactMatches attempts : Nat)
  | warning (n : Nat)
  | blank
  | gameOver (secret : GoString)
deriving DecidableEq, Repr

/-- How `Run` ends: `won` is the `return` of the win branch, `lost` the
game-over block after the loop. -/
inductive Outcome where
  | won
  | lost
deriving DecidableEq, Repr

/-- One pass through the loop body of `Run`, after the line was read:
`next` goes on with the loop, `won` returns. -/
inductive Step where
  | next (g : Game) (out : List Output)
  | won (g : Game) (out : List Output)
deriving DecidableEq, Repr

/-- Final state of `Run`, what it printed and the lines `scanner.Scan()` did
not deliver. -/
structure RunResult where
  game : Game
  outcome : Outcome
  output : List Output
  unread : List GoString
deriving DecidableEq, Repr

/-- Body of the loop of `Run` from `input := scanner.Text()` on; `none` is a
panic inside `evaluateGuess`. -/
def runBody (upperCase : Nat → Nat) (g : Game) (input : GoString) : Option Step :=
  let remaining := g.maxAttempts - g.attempts
  match validateGuess upperCase input with
  | Except.error err => some (Step.next g [Output.invalid err])
  | Except.ok guess =>
    let g1 := { g with attempts := g.attempts + 1 }
    match evaluateGuess g1 guess with
    | none => none
    | some result =>
      let g2 := { g1 with guessHistory := g1.guessHistory ++ [result] }
      if result.exactMatches = CodeLength then
        some (Step.won g2
          [Output.history g2.guessHistory,
           Output.congratulations g2.secretCode g2.attempts])
      else
        some (Step.next g2
          ([Output.history g2.guessHistory,
            Output.encouragement result.exactMatches g2.attempts] ++
           (if remaining ≤ 3 then [Output.warning (remaining - 1)] else []) ++
           [Output.blank]))

/-- The game-over block after the loop of `Run`. -/
def gameOver (g : Game) (unread : List GoString) : RunResult :=
  { game := g
    outcome := Outcome.lost
    output := [Output.history g.guessHistory, Output.gameOver g.secretCode]
    unread := unread }

/-- The result of the rest of the run, with what was printed before put in
front. -/
def RunResult.after (out : List Output) (r : RunResult) : RunResult :=
  { r with output := out ++ r.output }

/-- Constant `bufio.MaxScanTokenSize` (`64 * 1024`): the size the buffer of a
`bufio.Scanner` grows to when `Buffer` was not called, as in `Run`. -/
def MaxScanTokenSize : Nat := 65536

/-- Function `dropCR` of package `bufio`, which `bufio.ScanLines` applies to
every line: one trailing carriage return removed. -/
def dropCR (data : GoString) : GoString :=
  if data.getLast? = some 0x0D then data.dropLast else data

/-- The loop `for g.attempts < g.maxAttempts` of `Run` over the lines of
standard input still to be read, followed by the game-over block.

`scanner.Scan()` returns `false`, and the loop ends by `break`, when no line is
left and when the next line has `MaxScanTokenSize` bytes or more: a line has to
fit in the buffer together with its newline, and a full buffer that holds no
newline makes `Scan` fail with `ErrTooLong`.  Otherwise `scanner.Text()` is the
line with one trailing carriage return dropped. -/
def runLoop (upperCase : Nat → Nat) : Game → List GoString → Option RunResult
  | g, [] =>
    if g.attempts < g.maxAttempts then
      some ((gameOver g []).after [Output.prompt (g.attempts + 1) g.maxAttempts])
    else some (gameOver g [])
  | g, line :: rest =>
    if g.attempts < g.maxAttempts then
      if MaxScanTokenSize ≤ line.length then
        some ((gameOver g (line :: rest)).after
          [Output.prompt (g.attempts + 1) g.maxAttempts])
      else
        match runBody upperCase g (dropCR line) with
        | none => none
        | some (Step.won g1 out) =>
          some { game := g1
                 outcome := Outcome.won
                 output := Output.prompt (g.attempts + 1) g.maxAttempts :: out
                 unread := rest }
        | some (Step.next g1 out) =>
          (runLoop upperCase g1 rest).map
            (RunResult.after (Output.prompt (g.attempts + 1) g.maxAttempts :: out))
    else some (gameOver g (line :: rest))

/-- Method `Run`, on the lines of standard input. -/
def Run (upperCase : Nat → Nat) (g : Game) (lines : List GoString) : Option RunResult :=
  (runLoop upperCase g lines).map (RunResult.after [Output.welcome])

/-- Method `generateSecretCode`; `draws i` is what `rand.Intn(len(AvailableSymbols))`
returns in iteration `i`. -/
def generateSecretCode (draws : Nat → Nat) : GoString :=
  (List.range CodeLength).map (fun i => AvailableSymbols.getD (draws i) 0)

/-- Function `NewGame`. -/
def NewGame (draws : Nat → Nat) : Game :=
  { secretCode := generateSecretCode draws
    attempts := 0
    maxAttempts := MaxAttempts
    guessHistory := [] }

/-- The states the loop of `Run` passes through from a given state: each step
is one pass through the loop body, taken under the loop condition. -/
inductive Reaches (upperCase : Nat → Nat) : Game → Game → Prop where
  | refl (g : Game) : Reaches upperCase g g
  | next {g0 g g1 : Game} {line : GoString} {out : List Output} :
      Reaches upperCase g0 g → g.attempts < g.maxAttempts →
      runBody upperCase g line = some (Step.next g1 out) → Reaches upperCase g0 g1
  | won {g0 g g1 : Game} {line : GoString} {out : List Output} :
      Reaches upperCase g0 g → g.attempts < g.maxAttempts →
      runBody upperCase g line = some (Step.won g1 out) → Reaches upperCase g0 g1

/-! ## Auxiliary definitions for the proofs -/

/-- The lines `scanner.Scan()` can deliver: those before the first line of
`MaxScanTokenSize` bytes or more. -/
def scannableLines (lines : List GoString) : List GoString :=
  lines.takeWhile (fun line => decide (line.length < MaxScanTokenSize))

/-- The guesses `validateGuess` accepts among the lines, each taken as
`scanner.Text()` gives it, in the order read. -/
def acceptedGuesses (upperCase : Nat → Nat) (lines : List GoString) : List GoString :=
  lines.filterMap (fun line => (validateGuess upperCase (dropCR line)).toOption)

/-- Symbols of `syms` at the positions whose mark in `used` is still `false`. -/
def freeSyms : List Nat → List Bool → List Nat
  | s :: ss, u :: us => if u then freeSyms ss us else s :: freeSyms ss us
  | _, _ => []

/-- Symbols on which guess and secret coincide position by position. -/
def exactSyms : List Nat → List Nat → List Nat
  | g :: gs, s :: ss => if g = s then g :: exactSyms gs ss else exactSyms gs ss
  | _, _ => []

/-- Marks left by the first pass: position by position, whether guess and
secret coincide. -/
def exactMarks : List Nat → List Nat → List Bool
  | g :: gs, s :: ss => decide (g = s) :: exactMarks gs ss
  | _, _ => []

/-- Guess symbols the second pass still has to look up, for the indices `is`. -/
def pending (guess : GoString) (guessUsed : List Bool) (is : List Nat) : List Nat :=
  is.filterMap (fun i => if guessUsed[i]? = some false then guess[i]? else none)

/-! ## Theorems -/

theorem range_codeLength : List.range CodeLength = [0, 1, 2, 3] := by decide

theorem mem_freeSyms_of_getElem {syms : List Nat} {used : List Bool} {j x : Nat}
    (hu : used[j]? = some false) (hs : syms[j]? = some x) : x ∈ freeSyms syms used := by
  induction syms generalizing used j with
  | nil => simp at hs
  | cons s ss ih =>
    cases used with
    | nil => simp at hu
    | cons u us =>
      cases j with
      | zero =>
        simp at hu hs
        subst hu; subst hs
        simp [freeSyms]
      | succ k =>
        simp at hu hs
        have := ih hu hs
        cases u <;> simp [freeSyms, this]

theorem not_mem_freeSyms {syms : List Nat} {used : List Bool} {x : Nat}
    (h : ∀ j : Nat, used[j]? = some false → syms[j]? ≠ some x) : x ∉ freeSyms syms used := by
  induction syms generalizing used with
  | nil => cases used <;> simp [freeSyms]
  | cons s ss ih =>
    cases used with
    | nil => simp [freeSyms]
    | cons u us =>
      have hrest : x ∉ freeSyms ss us := by
        apply ih
        intro j hj
        simpa using h (j + 1) (by simpa using hj)
      cases u with
      | true => simpa [freeSyms] using hrest
      | false =>
        have h0 := h 0 (by simp)
        simp at h0
        simp [freeSyms, hrest]
        exact fun hx => h0 hx.symm

theorem freeSyms_set_perm {syms : List Nat} {used : List Bool} {j x : Nat}
    (hu : used[j]? = some false) (hs : syms[j]? = some x) :
    (freeSyms syms (used.set j true)).Perm ((freeSyms syms used).erase x) := by
  induction syms generalizing used j with
  | nil => simp at hs
  | cons s ss ih =>
    cases used with
    | nil => simp at hu
    | cons u us =>
      cases j with
      | zero =>
        simp at hu hs
        subst hu; subst hs
        simp [freeSyms]
      | succ k =>
        simp at hu hs
        have hp := ih hu hs
        have hm := mem_freeSyms_of_getElem hu hs
        cases u with
        | true => simpa [freeSyms] using hp
        | false =>
          by_cases hsx : s = x
          · subst hsx
            simp only [List.set_cons_succ, freeSyms, Bool.false_eq_true, if_false,
              List.erase_cons_head]
            exact (List.Perm.cons s hp).trans (List.perm_cons_erase hm).symm
          · have hne : ¬ (s == x) = true := by simpa using hsx
            simp only [List.set_cons_succ, freeSyms, Bool.false_eq_true, if_false]
            rw [List.erase_cons_tail hne]
            exact List.Perm.cons s hp

/-- The inner loop either marks one free secret position holding the symbol
it looks for, or finds none among the indices it visits and changes nothing. -/
theorem partialScan_spec (secret guess : GoString) (i x : Nat) (hx : guess[i]? = some x)
    (st : EvalState) (js : List Nat)
    (hjs : ∀ j ∈ js, j < st.secretUsed.length ∧ j < secret.length) :
    (∃ j, st.secretUsed[j]? = some false ∧ secret[j]? = some x ∧
        partialScan secret guess i st js =
          some { st with partialMatches := st.partialMatches + 1
                         secretUsed := st.secretUsed.set j true }) ∨
    ((∀ j ∈ js, st.secretUsed[j]? = some false → secret[j]? ≠ some x) ∧
        partialScan secret guess i st js = some st) := by
  induction js with
  | nil => right; simp [partialScan]
  | cons j rest ih =>
    have hj := hjs j (by simp)
    have hrest := ih (fun k hk => hjs k (by simp [hk]))
    have hu : st.secretUsed[j]? = some st.secretUsed[j] := List.getElem?_eq_getElem hj.1
    have hs : secret[j]? = some secret[j] := List.getElem?_eq_getElem hj.2
    cases hb : st.secretUsed[j] with
    | true =>
      rw [hb] at hu
      rcases hrest with ⟨k, h1, h2, h3⟩ | ⟨h1, h2⟩
      · left
        exact ⟨k, h1, h2, by simp [partialScan, hu, h3]⟩
      · right
        refine ⟨?_, by simp [partialScan, hu, h2]⟩
        intro k hk
        rcases List.mem_cons.mp hk with rfl | hk
        · simp [hu]
        · exact h1 k hk
    | false =>
      rw [hb] at hu
      by_cases heq : x = secret[j]
      · left
        refine ⟨j, hu, by rw [hs, heq], ?_⟩
        simp [partialScan, hu, hx, hs, heq]
      · rcases hrest with ⟨k, h1, h2, h3⟩ | ⟨h1, h2⟩
        · left
          exact ⟨k, h1, h2, by simp [partialScan, hu, hx, hs, heq, h3]⟩
        · right
          refine ⟨?_, by simp [partialScan, hu, hx, hs, heq, h2]⟩
          intro k hk
          rcases List.mem_cons.mp hk with rfl | hk
          · intro _ h
            rw [hs] at h
            exact heq (Option.some.inj h).symm
          · exact h1 k hk

/-- The second pass leaves the exact count alone and adds to the partial count
the size of the multiset intersection of the pending guess symbols with the
free secret symbols. -/
theorem partialPass_spec (secret guess : GoString)
    (hs : secret.length = CodeLength) (hg : guess.length = CodeLength)
    (is : List Nat) (his : ∀ i ∈ is, i < CodeLength) (st : EvalState)
    (hsu : st.secretUsed.length = CodeLength) (hgu : st.guessUsed.length = CodeLength) :
    ∃ st1, partialPass secret guess st is = some st1 ∧
      st1.exactMatches = st.exactMatches ∧
      st1.partialMatches = st.partialMatches +
        Multiset.card ((pending guess st.guessUsed is : Multiset Nat) ∩
          (freeSyms secret st.secretUsed : Multiset Nat)) := by
  induction is generalizing st with
  | nil => exact ⟨st, by simp [partialPass, pending]⟩
  | cons i rest ih =>
    have hi : i < CodeLength := his i (by simp)
    have hrest : ∀ k ∈ rest, k < CodeLength := fun k hk => his k (by simp [hk])
    have hu : st.guessUsed[i]? = some st.guessUsed[i] :=
      List.getElem?_eq_getElem (by omega)
    have hgi : guess[i]? = some guess[i] := List.getElem?_eq_getElem (by omega)
    cases hb : st.guessUsed[i] with
    | true =>
      rw [hb] at hu
      obtain ⟨st1, h1, h2, h3⟩ := ih hrest st hsu hgu
      refine ⟨st1, by simp [partialPass, hu, h1], h2, ?_⟩
      rw [h3]
      simp [pending, hu]
    | false =>
      rw [hb] at hu
      have hpend : pending guess st.guessUsed (i :: rest)
          = guess[i] :: pending guess st.guessUsed rest := by
        simp [pending, hu, hgi]
      have hjs : ∀ j ∈ List.range CodeLength,
          j < st.secretUsed.length ∧ j < secret.length := by
        intro j hj
        have := List.mem_range.mp hj
        omega
      rcases partialScan_spec secret guess i guess[i] hgi st (List.range CodeLength) hjs with
        ⟨j, hj1, hj2, hj3⟩ | ⟨hn1, hn2⟩
      · obtain ⟨st1, h1, h2, h3⟩ := ih hrest
          { st with partialMatches := st.partialMatches + 1
                    secretUsed := st.secretUsed.set j true }
          (by simpa using hsu) hgu
        refine ⟨st1, by simp [partialPass, hu, hj3, h1], by simpa using h2, ?_⟩
        have hmem : guess[i] ∈ (freeSyms secret st.secretUsed : Multiset Nat) :=
          Multiset.mem_coe.mpr (mem_freeSyms_of_getElem hj1 hj2)
        have hperm : (freeSyms secret (st.secretUsed.set j true) : Multiset Nat)
            = (freeSyms secret st.secretUsed : Multiset Nat).erase guess[i] := by
          rw [Multiset.coe_erase]
          exact Multiset.coe_eq_coe.mpr (freeSyms_set_perm hj1 hj2)
        rw [h3, hpend, ← Multiset.cons_coe, Multiset.cons_inter_of_pos _ hmem,
          Multiset.card_cons]
        simp only [hperm]
        omega
      · obtain ⟨st1, h1, h2, h3⟩ := ih hrest st hsu hgu
        refine ⟨st1, by simp [partialPass, hu, hn2, h1], h2, ?_⟩
        have hnot : guess[i] ∉ (freeSyms secret st.secretUsed : Multiset Nat) := by
          rw [Multiset.mem_coe]
          apply not_mem_freeSyms
          intro j hj
          by_cases hlt : j < CodeLength
          · exact hn1 j (List.mem_range.mpr hlt) hj
          · have : st.secretUsed[j]? = none := List.getElem?_eq_none (by omega)
            rw [this] at hj
            cases hj
        rw [h3, hpend, ← Multiset.cons_coe, Multiset.cons_inter_of_neg _ hnot]

theorem exactPass_four (s0 s1 s2 s3 g0 g1 g2 g3 : Nat) :
    exactPass [s0, s1, s2, s3] [g0, g1, g2, g3]
      { exactMatches := 0, partialMatches := 0
        secretUsed := List.replicate CodeLength false
        guessUsed := List.replicate CodeLength false } (List.range CodeLength)
    = some
      { exactMatches := (exactMarks [g0, g1, g2, g3] [s0, s1, s2, s3]).count true
        partialMatches := 0
        secretUsed := exactMarks [g0, g1, g2, g3] [s0, s1, s2, s3]
        guessUsed := exactMarks [g0, g1, g2, g3] [s0, s1, s2, s3] } := by
  rw [range_codeLength]
  by_cases h0 : g0 = s0 <;> by_cases h1 : g1 = s1 <;> by_cases h2 : g2 = s2 <;>
    by_cases h3 : g3 = s3 <;>
    simp [exactPass, exactMarks, CodeLength, List.replicate, h0, h1, h2, h3]

theorem pending_four (g0 g1 g2 g3 : Nat) (m0 m1 m2 m3 : Bool) :
    pending [g0, g1, g2, g3] [m0, m1, m2, m3] (List.range CodeLength)
      = freeSyms [g0, g1, g2, g3] [m0, m1, m2, m3] := by
  rw [range_codeLength]
  cases m0 <;> cases m1 <;> cases m2 <;> cases m3 <;> simp [pending, freeSyms]

theorem length_exactMarks (guess secret : List Nat) (h : guess.length = secret.length) :
    (exactMarks guess secret).length = secret.length := by
  induction guess generalizing secret with
  | nil => cases secret <;> simp_all [exactMarks]
  | cons g gs ih =>
    cases secret with
    | nil => simp at h
    | cons s ss => simp [exactMarks, ih ss (by simpa using h)]

theorem length_exactSyms (guess secret : List Nat) :
    (exactSyms guess secret).length = (exactMarks guess secret).count true := by
  induction guess generalizing secret with
  | nil => cases secret <;> simp [exactSyms, exactMarks]
  | cons g gs ih =>
    cases secret with
    | nil => simp [exactSyms, exactMarks]
    | cons s ss =>
      by_cases h : g = s <;> simp [exactSyms, exactMarks, h, ih ss, List.count_cons]

theorem secret_perm_split (guess secret : List Nat) (h : guess.length = secret.length) :
    secret.Perm (exactSyms guess secret ++ freeSyms secret (exactMarks guess secret)) := by
  induction guess generalizing secret with
  | nil => cases secret <;> simp_all [exactSyms, exactMarks, freeSyms]
  | cons g gs ih =>
    cases secret with
    | nil => simp at h
    | cons s ss =>
      have hp := ih ss (by simpa using h)
      by_cases hgs : g = s
      · subst hgs
        simpa [exactSyms, exactMarks, freeSyms] using hp
      · simp only [exactSyms, exactMarks, freeSyms, hgs, if_false, decide_False,
          Bool.false_eq_true]
        exact (List.Perm.cons s hp).trans List.perm_middle.symm

theorem guess_perm_split (guess secret : List Nat) (h : guess.length = secret.length) :
    guess.Perm (exactSyms guess secret ++ freeSyms guess (exactMarks guess secret)) := by
  induction guess generalizing secret with
  | nil => cases secret <;> simp_all [exactSyms, exactMarks, freeSyms]
  | cons g gs ih =>
    cases secret with
    | nil => simp at h
    | cons s ss =>
      have hp := ih ss (by simpa using h)
      by_cases hgs : g = s
      · subst hgs
        simpa [exactSyms, exactMarks, freeSyms] using hp
      · simp only [exactSyms, exactMarks, freeSyms, hgs, if_false, decide_False,
          Bool.false_eq_true]
        exact (List.Perm.cons g hp).trans List.perm_middle.symm

/-- Number of positions at which guess and secret hold the same symbol. -/
theorem count_exactMarks (guess secret : List Nat) (h : guess.length = secret.length) :
    (exactMarks guess secret).count true
      = ((List.range secret.length).filter
          (fun i => decide (guess[i]? = secret[i]?))).length := by
  induction guess generalizing secret with
  | nil => cases secret <;> simp_all [exactMarks]
  | cons g gs ih =>
    cases secret with
    | nil => simp at h
    | cons s ss =>
      have hp := ih ss (by simpa using h)
      rw [List.length_cons, List.range_succ_eq_map, List.filter_cons]
      by_cases hgs : g = s <;>
        simp [exactMarks, hgs, List.count_cons, hp, List.filter_map, Function.comp_def]

theorem list_length_four {l : List Nat} (h : l.length = CodeLength) :
    ∃ a b c d, l = [a, b, c, d] := by
  match l, h with
  | [a, b, c, d], _ => exact ⟨a, b, c, d, rfl⟩

/-- Closed form of `evaluateGuess` on four-symbol strings. -/
theorem evaluateGuess_spec (g : Game) (guess : GoString)
    (hs : g.secretCode.length = CodeLength) (hg : guess.length = CodeLength) :
    evaluateGuess g guess = some
      { guess := guess
        exactMatches := (exactMarks guess g.secretCode).count true
        partialMatches := Multiset.card
          ((freeSyms guess (exactMarks guess g.secretCode) : Multiset Nat) ∩
            (freeSyms g.secretCode (exactMarks guess g.secretCode) : Multiset Nat)) } := by
  obtain ⟨s0, s1, s2, s3, hsec⟩ := list_length_four hs
  obtain ⟨g0, g1, g2, g3, hgu⟩ := list_length_four hg
  have hm : (exactMarks guess g.secretCode).length = CodeLength := by
    rw [length_exactMarks _ _ (by rw [hs, hg]), hs]
  obtain ⟨st1, h1, h2, h3⟩ := partialPass_spec g.secretCode guess hs hg
    (List.range CodeLength) (fun i hi => List.mem_range.mp hi)
    { exactMatches := (exactMarks guess g.secretCode).count true
      partialMatches := 0
      secretUsed := exactMarks guess g.secretCode
      guessUsed := exactMarks guess g.secretCode } hm hm
  have hp : pending guess (exactMarks guess g.secretCode) (List.range CodeLength)
      = freeSyms guess (exactMarks guess g.secretCode) := by
    rw [hsec, hgu]
    exact pending_four _ _ _ _ _ _ _ _
  have he := exactPass_four s0 s1 s2 s3 g0 g1 g2 g3
  rw [← hsec, ← hgu] at he
  simp only [evaluateGuess, he, h1]
  simp only [hp, Nat.zero_add] at h3
  rw [h2, h3]

/-- Exact plus partial matches are the size of the multiset intersection of
secret and guess. -/
theorem exact_add_partial_eq_card_inter (guess secret : List Nat)
    (h : guess.length = secret.length) :
    (exactMarks guess secret).count true +
      Multiset.card ((freeSyms guess (exactMarks guess secret) : Multiset Nat) ∩
        (freeSyms secret (exactMarks guess secret) : Multiset Nat))
    = Multiset.card ((secret : Multiset Nat) ∩ (guess : Multiset Nat)) := by
  have h1 : (secret : Multiset Nat) = (exactSyms guess secret : Multiset Nat) +
      (freeSyms secret (exactMarks guess secret) : Multiset Nat) := by
    rw [Multiset.coe_add]
    exact Multiset.coe_eq_coe.mpr (secret_perm_split guess secret h)
  have h2 : (guess : Multiset Nat) = (exactSyms guess secret : Multiset Nat) +
      (freeSyms guess (exactMarks guess secret) : Multiset Nat) := by
    rw [Multiset.coe_add]
    exact Multiset.coe_eq_coe.mpr (guess_perm_split guess secret h)
  conv_rhs => rw [h1, h2]
  rw [← Multiset.add_inter_distrib, Multiset.card_add, Multiset.coe_card,
    length_exactSyms, Multiset.inter_comm]

/-- The size of a multiset intersection as a sum of minima of multiplicities. -/
theorem card_inter_eq_sum_min (secret guess : List Nat) (S : Finset Nat)
    (hS : ∀ c ∈ secret, c ∈ S) :
    Multiset.card ((secret : Multiset Nat) ∩ (guess : Multiset Nat))
      = ∑ c in S, min (secret.count c) (guess.count c) := by
  rw [← Multiset.toFinset_sum_count_eq]
  apply Finset.sum_subset_zero_on_sdiff
  · intro c hc
    have hc1 := Multiset.mem_toFinset.mp hc
    exact hS c (Multiset.mem_coe.mp (Multiset.mem_of_le (Multiset.inter_le_left _ _) hc1))
  · intro c hc
    have hc1 : c ∉ ((secret : Multiset Nat) ∩ (guess : Multiset Nat)) := by
      intro hmem
      exact (Finset.mem_sdiff.mp hc).2 (Multiset.mem_toFinset.mpr hmem)
    have := Multiset.count_eq_zero_of_not_mem hc1
    rw [Multiset.count_inter, Multiset.coe_count, Multiset.coe_count] at this
    exact this
  · intro c _
    rw [Multiset.count_inter, Multiset.coe_count, Multiset.coe_count]

theorem exactMarks_comm (a b : List Nat) : exactMarks a b = exactMarks b a := by
  induction a generalizing b with
  | nil => cases b <;> simp [exactMarks]
  | cons x xs ih =>
    cases b with
    | nil => simp [exactMarks]
    | cons y ys =>
      simp only [exactMarks, ih ys]
      congr 1
      exact decide_eq_decide.mpr eq_comm

theorem count_exactMarks_four (s0 s1 s2 s3 g0 g1 g2 g3 : Nat) :
    (exactMarks [g0, g1, g2, g3] [s0, s1, s2, s3]).count true = CodeLength ↔
      [g0, g1, g2, g3] = [s0, s1, s2, s3] := by
  by_cases h0 : g0 = s0 <;> by_cases h1 : g1 = s1 <;> by_cases h2 : g2 = s2 <;>
    by_cases h3 : g3 = s3 <;>
    simp [exactMarks, CodeLength, h0, h1, h2, h3, List.count_cons]

theorem count_exactMarks_eq_iff (guess secret : List Nat)
    (hs : secret.length = CodeLength) (hg : guess.length = CodeLength) :
    (exactMarks guess secret).count true = CodeLength ↔ guess = secret := by
  obtain ⟨s0, s1, s2, s3, rfl⟩ := list_length_four hs
  obtain ⟨g0, g1, g2, g3, rfl⟩ := list_length_four hg
  exact count_exactMarks_four s0 s1 s2 s3 g0 g1 g2 g3

/-- C1: for a secret and a guess of exactly `CodeLength` (4) symbols each,
`evaluateGuess` returns a result with `0 ≤ exactMatches ≤ 4` and
`exactMatches + partialMatches ≤ 4`. -/
theorem evaluateGuess_bounds (g : Game) (guess : GoString)
    (hs : g.secretCode.length = CodeLength) (hg : guess.length = CodeLength) :
    ∃ r, evaluateGuess g guess = some r ∧
      0 ≤ r.exactMatches ∧ r.exactMatches ≤ 4 ∧ r.exactMatches + r.partialMatches ≤ 4 := by
  refine ⟨_, evaluateGuess_spec g guess hs hg, Nat.zero_le _, ?_⟩
  have htot := exact_add_partial_eq_card_inter guess g.secretCode (by rw [hs, hg])
  have hle : Multiset.card ((g.secretCode : Multiset Nat) ∩ (guess : Multiset Nat))
      ≤ Multiset.card (g.secretCode : Multiset Nat) :=
    Multiset.card_le_card (Multiset.inter_le_left _ _)
  rw [Multiset.coe_card, hs] at hle
  simp only [CodeLength] at hle
  constructor <;> simp only <;> omega

theorem evaluateGuess_bounds_witness :
    ∃ r, evaluateGuess ⟨[0x41, 0x41, 0x42, 0x43], 0, 10, []⟩ [0x41, 0x41, 0x41, 0x41] = some r ∧
      0 ≤ r.exactMatches ∧ r.exactMatches ≤ 4 ∧ r.exactMatches + r.partialMatches ≤ 4 :=
  evaluateGuess_bounds ⟨[0x41, 0x41, 0x42, 0x43], 0, 10, []⟩ [0x41, 0x41, 0x41, 0x41]
    (by decide) (by decide)

/-- C2: for a secret and a guess of exactly 4 symbols each, `evaluateGuess`
returns `exactMatches = 4` if and only if the guess equals the secret, and
`exactMatches` is the number of positions `i` with `guess[i] = secret[i]`. -/
theorem evaluateGuess_exactMatches (g : Game) (guess : GoString)
    (hs : g.secretCode.length = CodeLength) (hg : guess.length = CodeLength) :
    ∃ r, evaluateGuess g guess = some r ∧
      (r.exactMatches = 4 ↔ guess = g.secretCode) ∧
      r.exactMatches = ((List.range 4).filter
        (fun i => decide (guess[i]? = g.secretCode[i]?))).length := by
  refine ⟨_, evaluateGuess_spec g guess hs hg, ?_, ?_⟩
  · exact count_exactMarks_eq_iff guess g.secretCode hs hg
  · have := count_exactMarks guess g.secretCode (by rw [hs, hg])
    rw [hs] at this
    exact this

theorem evaluateGuess_exactMatches_witness :
    ∃ r, evaluateGuess ⟨[0x41, 0x42, 0x43, 0x44], 0, 10, []⟩ [0x41, 0x42, 0x43, 0x44] = some r ∧
      (r.exactMatches = 4 ↔ [0x41, 0x42, 0x43, 0x44] = [0x41, 0x42, 0x43, 0x44]) ∧
      r.exactMatches = ((List.range 4).filter
        (fun i => decide (([0x41, 0x42, 0x43, 0x44] : List Nat)[i]?
          = ([0x41, 0x42, 0x43, 0x44] : List Nat)[i]?))).length :=
  evaluateGuess_exactMatches ⟨[0x41, 0x42, 0x43, 0x44], 0, 10, []⟩ [0x41, 0x42, 0x43, 0x44]
    (by decide) (by decide)

/-- C3, as the code behaves: with secret `AABB`, `evaluateGuess` on guess
`ABAB` returns `exactMatches = 2` (positions 0 and 3 coincide) and
`partialMatches = 2`. -/
theorem evaluateGuess_AABB_ABAB (attempts maxAttempts : Nat) (history : List GuessResult) :
    evaluateGuess ⟨[0x41, 0x41, 0x42, 0x42], attempts, maxAttempts, history⟩
        [0x41, 0x42, 0x41, 0x42]
      = some ⟨[0x41, 0x42, 0x41, 0x42], 2, 2⟩ := by
  rfl

/-- C3 as stated fails: secret `AABB`, guess `ABAB` does not give
`exactMatches = 0` and `partialMatches = 4`. -/
theorem evaluateGuess_AABB_ABAB_not_0_4 :
    ¬ ∃ r, evaluateGuess ⟨[0x41, 0x41, 0x42, 0x42], 0, 10, []⟩ [0x41, 0x42, 0x41, 0x42] = some r ∧
      r.exactMatches = 0 ∧ r.partialMatches = 4 := by
  rintro ⟨r, hr, h0, _⟩
  have h : evaluateGuess ⟨[0x41, 0x41, 0x42, 0x42], 0, 10, []⟩ [0x41, 0x42, 0x41, 0x42]
      = some ⟨[0x41, 0x42, 0x41, 0x42], 2, 2⟩ := by decide
  rw [h] at hr
  cases hr
  simp at h0

/-- C9: the two passes of `evaluateGuess` compute the standard Mastermind
score.  For a secret and a guess of exactly 4 symbols each, and every finite
set `S` of symbols that holds the symbols of the secret,
`exactMatches + partialMatches` is the sum over `c ∈ S` of
`min (occurrences of c in the secret) (occurrences of c in the guess)`, so
`partialMatches` is that sum minus the number of coinciding positions; the
score is unchanged when secret and guess are swapped; and secret `AABC`, guess
`AAAA` scores (2, 0), secret `ABCD`, guess `DCBA` scores (0, 4). -/
theorem evaluateGuess_standard_score (g : Game) (guess : GoString)
    (hs : g.secretCode.length = CodeLength) (hg : guess.length = CodeLength) :
    (∃ r, evaluateGuess g guess = some r ∧
      (∀ S : Finset Nat, (∀ c ∈ g.secretCode, c ∈ S) →
        r.exactMatches + r.partialMatches
            = ∑ c in S, min (g.secretCode.count c) (guess.count c) ∧
        r.partialMatches
            = (∑ c in S, min (g.secretCode.count c) (guess.count c))
              - ((List.range 4).filter
                  (fun i => decide (guess[i]? = g.secretCode[i]?))).length) ∧
      ∃ r1, evaluateGuess { g with secretCode := guess } g.secretCode = some r1 ∧
        r1.exactMatches = r.exactMatches ∧ r1.partialMatches = r.partialMatches) ∧
    (∀ (a m : Nat) (h : List GuessResult),
      evaluateGuess ⟨[0x41, 0x41, 0x42, 0x43], a, m, h⟩ [0x41, 0x41, 0x41, 0x41]
        = some ⟨[0x41, 0x41, 0x41, 0x41], 2, 0⟩) ∧
    (∀ (a m : Nat) (h : List GuessResult),
      evaluateGuess ⟨[0x41, 0x42, 0x43, 0x44], a, m, h⟩ [0x44, 0x43, 0x42, 0x41]
        = some ⟨[0x44, 0x43, 0x42, 0x41], 0, 4⟩) := by
  refine ⟨⟨_, evaluateGuess_spec g guess hs hg, ?_, _,
    evaluateGuess_spec { g with secretCode := guess } g.secretCode hg hs, ?_, ?_⟩,
    fun _ _ _ => rfl, fun _ _ _ => rfl⟩
  · intro S hS
    have htot := exact_add_partial_eq_card_inter guess g.secretCode (by rw [hs, hg])
    have hsum := card_inter_eq_sum_min g.secretCode guess S hS
    have hcnt := count_exactMarks guess g.secretCode (by rw [hs, hg])
    rw [hs] at hcnt
    simp only [CodeLength] at hcnt
    simp only
    rw [← hsum, ← hcnt]
    omega
  · simp only
    rw [exactMarks_comm]
  · simp only
    rw [exactMarks_comm, Multiset.inter_comm]

theorem evaluateGuess_standard_score_witness :
    (∃ r, evaluateGuess ⟨[0x41, 0x41, 0x42, 0x43], 0, 10, []⟩ [0x41, 0x43, 0x41, 0x45] = some r ∧
      (∀ S : Finset Nat, (∀ c ∈ ([0x41, 0x41, 0x42, 0x43] : List Nat), c ∈ S) →
        r.exactMatches + r.partialMatches
            = ∑ c in S, min (([0x41, 0x41, 0x42, 0x43] : List Nat).count c)
                (([0x41, 0x43, 0x41, 0x45] : List Nat).count c) ∧
        r.partialMatches
            = (∑ c in S, min (([0x41, 0x41, 0x42, 0x43] : List Nat).count c)
                (([0x41, 0x43, 0x41, 0x45] : List Nat).count c))
              - ((List.range 4).filter
                  (fun i => decide (([0x41, 0x43, 0x41, 0x45] : List Nat)[i]?
                    = ([0x41, 0x41, 0x42, 0x43] : List Nat)[i]?))).length) ∧
      ∃ r1, evaluateGuess ⟨[0x41, 0x43, 0x41, 0x45], 0, 10, []⟩ [0x41, 0x41, 0x42, 0x43]
          = some r1 ∧
        r1.exactMatches = r.exactMatches ∧ r1.partialMatches = r.partialMatches) ∧
    (∀ (a m : Nat) (h : List GuessResult),
      evaluateGuess ⟨[0x41, 0x41, 0x42, 0x43], a, m, h⟩ [0x41, 0x41, 0x41, 0x41]
        = some ⟨[0x41, 0x41, 0x41, 0x41], 2, 0⟩) ∧
    (∀ (a m : Nat) (h : List GuessResult),
      evaluateGuess ⟨[0x41, 0x42, 0x43, 0x44], a, m, h⟩ [0x44, 0x43, 0x42, 0x41]
        = some ⟨[0x44, 0x43, 0x42, 0x41], 0, 4⟩) :=
  evaluateGuess_standard_score ⟨[0x41, 0x41, 0x42, 0x43], 0, 10, []⟩ [0x41, 0x43, 0x41, 0x45]
    (by decide) (by decide)

/-! ### `validateGuess` -/

theorem DecodeRuneInString_ascii (b : Nat) (rest : GoString) (hb : b < RuneSelf) :
    DecodeRuneInString (b :: rest) = (b, 1) := by
  simp [DecodeRuneInString, hb]

/-- A rune below `RuneSelf` is only decoded from a single byte below `RuneSelf`. -/
theorem lt_runeSelf_of_decode (b : Nat) (rest : GoString)
    (h : (DecodeRuneInString (b :: rest)).1 < RuneSelf) : b < RuneSelf := by
  by_contra hb
  rcases rest with _ | ⟨s1, _ | ⟨s2, _ | ⟨s3, r⟩⟩⟩ <;>
    simp only [DecodeRuneInString, hb, if_false] at h <;>
    split_ifs at h <;>
    simp only [RuneSelf, RuneError, seqLen, acceptLo, acceptHi] at * <;>
    first
      | omega
      | (split_ifs at * <;> omega)

theorem rangeRunes_ascii (fuel : Nat) (s : GoString) (hf : s.length ≤ fuel)
    (hs : ∀ b ∈ s, b < RuneSelf) : rangeRunes fuel s = s := by
  induction fuel generalizing s with
  | zero =>
    have : s = [] := List.length_eq_zero.mp (by omega)
    subst this
    rfl
  | succ n ih =>
    cases s with
    | nil => rfl
    | cons b rest =>
      have hb : b < RuneSelf := hs b (by simp)
      simp only [rangeRunes, DecodeRuneInString_ascii b rest hb, List.drop_succ_cons,
        List.drop_zero]
      rw [ih rest (by simpa using hf) (fun c hc => hs c (by simp [hc]))]

theorem bytes_lt_of_rangeRunes (fuel : Nat) (s : GoString) (hf : s.length ≤ fuel)
    (hr : ∀ r ∈ rangeRunes fuel s, r < RuneSelf) : ∀ b ∈ s, b < RuneSelf := by
  induction fuel generalizing s with
  | zero =>
    have : s = [] := List.length_eq_zero.mp (by omega)
    subst this
    simp
  | succ n ih =>
    cases s with
    | nil => simp
    | cons b rest =>
      have hd : (DecodeRuneInString (b :: rest)).1 < RuneSelf := hr _ (by simp [rangeRunes])
      have hb : b < RuneSelf := lt_runeSelf_of_decode b rest hd
      simp only [rangeRunes, DecodeRuneInString_ascii b rest hb, List.drop_succ_cons,
        List.drop_zero] at hr
      have := ih rest (by simpa using hf) (fun r h => hr r (by simp [h]))
      intro c hc
      rcases List.mem_cons.mp hc with rfl | hc
      · exact hb
      · exact this c hc

theorem containsRune_availableSymbols (r : Nat) :
    ContainsRune AvailableSymbols r = true ↔ r ∈ AvailableSymbols := by
  have : rangeRunes AvailableSymbols.length AvailableSymbols = AvailableSymbols := by decide
  simp [ContainsRune, this]

theorem mem_availableSymbols (r : Nat) : r ∈ AvailableSymbols ↔ 0x41 ≤ r ∧ r ≤ 0x46 := by
  simp only [AvailableSymbols, List.mem_cons, List.mem_singleton, List.not_mem_nil, or_false]
  omega

theorem isSpace_symbol (r : Nat) (h : r ∈ AvailableSymbols) : IsSpace r = false := by
  have := (mem_availableSymbols r).mp h
  simp only [IsSpace]
  rw [if_pos (by omega)]
  simp only [decide_eq_false_iff_not]
  omega

theorem TrimSpace_symbols (a b c d : Nat) (ha : a ∈ AvailableSymbols)
    (hd : d ∈ AvailableSymbols) : TrimSpace [a, b, c, d] = [a, b, c, d] := by
  have ha1 := (mem_availableSymbols a).mp ha
  have hd1 := (mem_availableSymbols d).mp hd
  have ha2 : a < RuneSelf := by simp only [RuneSelf]; omega
  have hd2 : d < RuneSelf := by simp only [RuneSelf]; omega
  have hl : trimLeftSpace [a, b, c, d].length [a, b, c, d] = [a, b, c, d] := by
    simp [trimLeftSpace, DecodeRuneInString_ascii a _ ha2, isSpace_symbol a ha]
  have hr : trimRightSpace [a, b, c, d].length [a, b, c, d] = [a, b, c, d] := by
    simp [trimRightSpace, DecodeLastRuneInString, hd2, isSpace_symbol d hd]
  simp only [TrimSpace, hl, hr]

theorem ToUpper_symbols (upperCase : Nat → Nat) (s : GoString)
    (hs : ∀ b ∈ s, b ∈ AvailableSymbols) : ToUpper upperCase s = s := by
  have h1 : s.all (fun c => decide (c < RuneSelf)) = true := by
    rw [List.all_eq_true]
    intro b hb
    have := (mem_availableSymbols b).mp (hs b hb)
    simp only [RuneSelf, decide_eq_true_eq]
    omega
  have h2 : s.any (fun c => decide (0x61 ≤ c ∧ c ≤ 0x7A)) = false := by
    rw [List.any_eq_false]
    intro b hb
    have := (mem_availableSymbols b).mp (hs b hb)
    simp only [decide_eq_true_eq]
    omega
  unfold ToUpper
  rw [if_pos h1, if_neg (by rw [h2]; exact Bool.false_ne_true)]

/-- A string of four symbols of the alphabet passes `validateGuess` unchanged. -/
theorem validateGuess_symbols (upperCase : Nat → Nat) (g : GoString)
    (hl : g.length = CodeLength) (hs : ∀ b ∈ g, b ∈ AvailableSymbols) :
    validateGuess upperCase g = Except.ok g := by
  obtain ⟨a, b, c, d, rfl⟩ := list_length_four hl
  have htrim := TrimSpace_symbols a b c d (hs a (by simp)) (hs d (by simp))
  have hup := ToUpper_symbols upperCase [a, b, c, d] hs
  have hrunes : rangeRunes [a, b, c, d].length [a, b, c, d] = [a, b, c, d] := by
    apply rangeRunes_ascii _ _ (le_refl _)
    intro x hx
    have := (mem_availableSymbols x).mp (hs x hx)
    simp only [RuneSelf]
    omega
  have hfind : ([a, b, c, d] : List Nat).find?
      (fun char => !ContainsRune AvailableSymbols char) = none := by
    rw [List.find?_eq_none]
    intro x hx
    simp [(containsRune_availableSymbols x).mpr (hs x hx)]
  simp only [validateGuess, htrim, hup, hrunes, hfind]
  simp [CodeLength]

/-- What a successful `validateGuess` returns: the trimmed, upper-cased input,
four bytes long, every byte a symbol of the alphabet. -/
theorem validateGuess_ok (upperCase : Nat → Nat) (input g : GoString)
    (h : validateGuess upperCase input = Except.ok g) :
    g = ToUpper upperCase (TrimSpace input) ∧ g.length = CodeLength ∧
      ∀ b ∈ g, b ∈ AvailableSymbols := by
  simp only [validateGuess] at h
  split_ifs at h with hlen
  split at h
  · cases h
  · rename_i hfind
    cases h
    refine ⟨rfl, not_not.mp hlen, ?_⟩
    set guess := ToUpper upperCase (TrimSpace input) with hguess
    rw [List.find?_eq_none] at hfind
    have hr : ∀ r ∈ rangeRunes guess.length guess, r ∈ AvailableSymbols := by
      intro r hr
      have := hfind r hr
      simp only [Bool.not_eq_true', Bool.not_eq_false] at this
      exact (containsRune_availableSymbols r).mp (by simpa using this)
    have hlt : ∀ b ∈ guess, b < RuneSelf := by
      apply bytes_lt_of_rangeRunes guess.length guess (le_refl _)
      intro r hrr
      have := (mem_availableSymbols r).mp (hr r hrr)
      simp only [RuneSelf]
      omega
    rw [rangeRunes_ascii _ _ (le_refl _) hlt] at hr
    exact hr

/-- C5: validation is idempotent.  Every string of exactly 4 symbols, all
drawn from `ABCDEF`, passes `validateGuess` unchanged; and whenever
`validateGuess` succeeds with result `g`, that result is the trimmed,
upper-cased input and `validateGuess g` succeeds again with the same `g`. -/
theorem validateGuess_idempotent (upperCase : Nat → Nat) :
    (∀ g : GoString, g.length = 4 → (∀ b ∈ g, b ∈ AvailableSymbols) →
      validateGuess upperCase g = Except.ok g) ∧
    (∀ input g : GoString, validateGuess upperCase input = Except.ok g →
      g = ToUpper upperCase (TrimSpace input) ∧ validateGuess upperCase g = Except.ok g) := by
  refine ⟨fun g hl hs => validateGuess_symbols upperCase g hl hs, ?_⟩
  intro input g h
  obtain ⟨h1, h2, h3⟩ := validateGuess_ok upperCase input g h
  exact ⟨h1, validateGuess_symbols upperCase g h2 h3⟩

/-- C4 at the input `"ABé"` (bytes 41 42 C3 A9; `upperCase` maps é, U+00E9, to
É, U+00C9, as Unicode does): the trimmed, upper-cased input has 3 characters,
yet it is 4 bytes long, passes the length check and `validateGuess` fails with
the invalid-symbol error for `É` instead of the length error. -/
theorem validateGuess_three_characters_four_bytes (upperCase : Nat → Nat)
    (h : upperCase 0xE9 = 0xC9) :
    RuneCountInString (ToUpper upperCase (TrimSpace [0x41, 0x42, 0xC3, 0xA9])) = 3 ∧
    (ToUpper upperCase (TrimSpace [0x41, 0x42, 0xC3, 0xA9])).length = 4 ∧
    validateGuess upperCase [0x41, 0x42, 0xC3, 0xA9]
      = Except.error (GuessError.invalidSymbol 0xC9) ∧
    validateGuess upperCase [0x41, 0x42, 0xC3, 0xA9] ≠ Except.error GuessError.length := by
  have htrim : TrimSpace [0x41, 0x42, 0xC3, 0xA9] = [0x41, 0x42, 0xC3, 0xA9] := by decide
  have hrunes : rangeRunes 4 [0x41, 0x42, 0xC3, 0xA9] = [0x41, 0x42, 0xE9] := by decide
  have hup : ToUpper upperCase [0x41, 0x42, 0xC3, 0xA9] = [0x41, 0x42, 0xC3, 0x89] := by
    have hall : ([0x41, 0x42, 0xC3, 0xA9] : GoString).all
        (fun c => decide (c < RuneSelf)) = false := by decide
    unfold ToUpper
    rw [if_neg (by rw [hall]; exact Bool.false_ne_true)]
    simp only [Map, List.length_cons, List.length_nil, hrunes, List.flatMap_cons,
      List.flatMap_nil, unicodeToUpper, h]
    norm_num [EncodeRune]
  have hval : validateGuess upperCase [0x41, 0x42, 0xC3, 0xA9]
      = Except.error (GuessError.invalidSymbol 0xC9) := by
    simp only [validateGuess, htrim, hup]
    decide
  refine ⟨?_, ?_, hval, ?_⟩
  · rw [htrim, hup]; decide
  · rw [htrim, hup]; decide
  · rw [hval]; decide

theorem validateGuess_three_characters_four_bytes_witness :
    RuneCountInString (ToUpper (fun r => if r = 0xE9 then 0xC9 else r)
      (TrimSpace [0x41, 0x42, 0xC3, 0xA9])) = 3 ∧
    (ToUpper (fun r => if r = 0xE9 then 0xC9 else r)
      (TrimSpace [0x41, 0x42, 0xC3, 0xA9])).length = 4 ∧
    validateGuess (fun r => if r = 0xE9 then 0xC9 else r) [0x41, 0x42, 0xC3, 0xA9]
      = Except.error (GuessError.invalidSymbol 0xC9) ∧
    validateGuess (fun r => if r = 0xE9 then 0xC9 else r) [0x41, 0x42, 0xC3, 0xA9]
      ≠ Except.error GuessError.length :=
  validateGuess_three_characters_four_bytes (fun r => if r = 0xE9 then 0xC9 else r)
    (by decide)

/-! ### `Run` -/

theorem acceptedGuesses_nil (up : Nat → Nat) : acceptedGuesses up [] = [] := rfl

theorem acceptedGuesses_cons_error (up : Nat → Nat) (line : GoString) (rest : List GoString)
    (err : GuessError) (h : validateGuess up (dropCR line) = Except.error err) :
    acceptedGuesses up (line :: rest) = acceptedGuesses up rest := by
  simp [acceptedGuesses, List.filterMap_cons, h, Except.toOption]

theorem acceptedGuesses_cons_ok (up : Nat → Nat) (line : GoString) (rest : List GoString)
    (x : GoString) (h : validateGuess up (dropCR line) = Except.ok x) :
    acceptedGuesses up (line :: rest) = x :: acceptedGuesses up rest := by
  simp [acceptedGuesses, List.filterMap_cons, h, Except.toOption]

theorem acceptedGuesses_append (up : Nat → Nat) (a b : List GoString) :
    acceptedGuesses up (a ++ b) = acceptedGuesses up a ++ acceptedGuesses up b := by
  simp [acceptedGuesses, List.filterMap_append]

theorem length_of_mem_acceptedGuesses (up : Nat → Nat) (lines : List GoString) (x : GoString)
    (h : x ∈ acceptedGuesses up lines) : x.length = CodeLength := by
  simp only [acceptedGuesses, List.mem_filterMap] at h
  obtain ⟨line, _, hl⟩ := h
  cases hv : validateGuess up (dropCR line) with
  | error e => simp [hv, Except.toOption] at hl
  | ok y =>
    simp [hv, Except.toOption] at hl
    subst hl
    exact (validateGuess_ok up (dropCR line) y hv).2.1

theorem scannableLines_nil : scannableLines [] = [] := rfl

theorem scannableLines_cons_long (line : GoString) (rest : List GoString)
    (h : MaxScanTokenSize ≤ line.length) : scannableLines (line :: rest) = [] := by
  have : ¬ line.length < MaxScanTokenSize := by omega
  simp [scannableLines, List.takeWhile_cons, this]

/-- When no line is too long for the scanner, every line is delivered. -/
theorem scannableLines_eq_self (lines : List GoString)
    (h : ∀ l ∈ lines, l.length < MaxScanTokenSize) : scannableLines lines = lines := by
  induction lines with
  | nil => rfl
  | cons a p ih =>
    have ha : a.length < MaxScanTokenSize := h a (by simp)
    have := ih (fun l hl => h l (by simp [hl]))
    simp only [scannableLines] at this
    simp [scannableLines, List.takeWhile_cons, ha, this]

theorem scannableLines_append (pre rest : List GoString)
    (h : ∀ l ∈ pre, l.length < MaxScanTokenSize) :
    scannableLines (pre ++ rest) = pre ++ scannableLines rest := by
  induction pre with
  | nil => rfl
  | cons a p ih =>
    have ha : a.length < MaxScanTokenSize := h a (by simp)
    have := ih (fun l hl => h l (by simp [hl]))
    simp only [scannableLines] at this
    simp [scannableLines, List.takeWhile_cons, ha, this]

theorem evaluateGuess_congr (g g1 : Game) (h : g1.secretCode = g.secretCode) :
    evaluateGuess g1 = evaluateGuess g := by
  funext guess
  simp only [evaluateGuess, h]

theorem runBody_error (up : Nat → Nat) (g : Game) (line : GoString) (err : GuessError)
    (h : validateGuess up line = Except.error err) :
    runBody up g line = some (Step.next g [Output.invalid err]) := by
  simp only [runBody, h]

theorem runBody_ok (up : Nat → Nat) (g : Game) (line x : GoString)
    (hs : g.secretCode.length = CodeLength) (h : validateGuess up line = Except.ok x) :
    ∃ res, evaluateGuess g x = some res ∧ res.guess = x ∧
      (x = g.secretCode →
        runBody up g line = some (Step.won
          { g with attempts := g.attempts + 1, guessHistory := g.guessHistory ++ [res] }
          [Output.history (g.guessHistory ++ [res]),
           Output.congratulations g.secretCode (g.attempts + 1)])) ∧
      (x ≠ g.secretCode →
        runBody up g line = some (Step.next
          { g with attempts := g.attempts + 1, guessHistory := g.guessHistory ++ [res] }
          ([Output.history (g.guessHistory ++ [res]),
            Output.encouragement res.exactMatches (g.attempts + 1)] ++
           (if g.maxAttempts - g.attempts ≤ 3
            then [Output.warning (g.maxAttempts - g.attempts - 1)] else []) ++
           [Output.blank]))) := by
  have hx := (validateGuess_ok up line x h).2.1
  have hev := evaluateGuess_spec g x hs hx
  have hev1 : evaluateGuess { g with attempts := g.attempts + 1 } x = evaluateGuess g x :=
    congrFun (evaluateGuess_congr g { g with attempts := g.attempts + 1 } rfl) x
  refine ⟨_, hev, rfl, ?_, ?_⟩
  · intro hxs
    have h4 := (count_exactMarks_eq_iff x g.secretCode hs hx).mpr hxs
    simp only [runBody, h, hev1, hev, h4, if_true]
  · intro hxs
    have h4 : ¬ (exactMarks x g.secretCode).count true = CodeLength :=
      fun hc => hxs ((count_exactMarks_eq_iff x g.secretCode hs hx).mp hc)
    simp only [runBody, h, hev1, hev, h4, if_false]

/-- Complete description of a run of the loop: the lines consumed (`pre`), the
final state and how the run ends. -/
theorem runLoop_spec (up : Nat → Nat) (lines : List GoString) :
    ∀ g : Game, g.secretCode.length = CodeLength →
    ∃ r pre, runLoop up g lines = some r ∧ lines = pre ++ r.unread ∧
      (∀ l ∈ pre, l.length < MaxScanTokenSize) ∧
      r.game.secretCode = g.secretCode ∧ r.game.maxAttempts = g.maxAttempts ∧
      r.game.attempts = g.attempts + (acceptedGuesses up pre).length ∧
      r.game.guessHistory
        = g.guessHistory ++ (acceptedGuesses up pre).filterMap (evaluateGuess g) ∧
      (∀ p l, pre = p ++ [l] →
        g.attempts + (acceptedGuesses up p).length < g.maxAttempts ∧
        g.secretCode ∉ acceptedGuesses up p) ∧
      (∀ s n, Output.congratulations s n ∈ r.output →
        r.outcome = Outcome.won ∧ s = g.secretCode ∧ n = r.game.attempts) ∧
      ((r.outcome = Outcome.won ∧
          (∃ p l, pre = p ++ [l] ∧ validateGuess up (dropCR l) = Except.ok g.secretCode) ∧
          Output.congratulations g.secretCode r.game.attempts ∈ r.output) ∨
       (r.outcome = Outcome.lost ∧ g.secretCode ∉ acceptedGuesses up pre ∧
          (scannableLines r.unread = [] ∨ g.maxAttempts ≤ r.game.attempts) ∧
          Output.gameOver g.secretCode ∈ r.output)) := by
  induction lines with
  | nil =>
    intro g _
    by_cases hc : g.attempts < g.maxAttempts
    · refine ⟨_, [], by simp only [runLoop, hc, if_true] ; rfl, ?_⟩
      simp [RunResult.after, gameOver, acceptedGuesses, scannableLines]
    · refine ⟨_, [], by simp only [runLoop, hc, if_false] ; rfl, ?_⟩
      simp [gameOver, acceptedGuesses, scannableLines]
  | cons input rest ih =>
    intro g hs
    by_cases hc : g.attempts < g.maxAttempts
    · by_cases hlong : MaxScanTokenSize ≤ input.length
      · refine ⟨_, [], by simp only [runLoop, hc, if_true, hlong] ; rfl, ?_⟩
        simp [RunResult.after, gameOver, acceptedGuesses,
          scannableLines_cons_long input rest hlong]
      have hin : input.length < MaxScanTokenSize := by omega
      cases hv : validateGuess up (dropCR input) with
      | error err =>
        obtain ⟨r, pre, hr, hlines, hsh, h1, h2, h3, h4, h5, h6, h7⟩ := ih g hs
        have hacc : ∀ q, acceptedGuesses up (input :: q) = acceptedGuesses up q :=
          fun q => acceptedGuesses_cons_error up input q err hv
        have hshc : ∀ l ∈ input :: pre, l.length < MaxScanTokenSize := by
          intro l hl
          rcases List.mem_cons.mp hl with rfl | hl
          · exact hin
          · exact hsh l hl
        refine ⟨r.after [Output.prompt (g.attempts + 1) g.maxAttempts, Output.invalid err],
          input :: pre, ?_, ?_, hshc, h1, h2, ?_, ?_, ?_, ?_, ?_⟩
        · simp only [runLoop, hc, if_true, hlong, if_false,
            runBody_error up g (dropCR input) err hv, hr, Option.map_some']
        · simp only [RunResult.after, List.cons_append]
          rw [← hlines]
        · simpa only [RunResult.after, hacc] using h3
        · simpa only [RunResult.after, hacc] using h4
        · intro p l hp
          cases p with
          | nil => simp [acceptedGuesses, hc]
          | cons a p1 =>
            simp only [List.cons_append, List.cons.injEq] at hp
            obtain ⟨rfl, hp⟩ := hp
            rw [hacc]
            exact h5 p1 l hp
        · intro s n hmem
          simp only [RunResult.after, List.cons_append, List.nil_append, List.mem_cons] at hmem
          rcases hmem with hmem | hmem | hmem
          · cases hmem
          · cases hmem
          · exact h6 s n hmem
        · rcases h7 with ⟨hw, ⟨p, l, hp, hl⟩, hmem⟩ | ⟨hl, hn, hu, hmem⟩
          · left
            refine ⟨hw, ⟨input :: p, l, by rw [hp]; rfl, hl⟩, ?_⟩
            simp only [RunResult.after, List.cons_append, List.nil_append, List.mem_cons]
            exact Or.inr (Or.inr hmem)
          · right
            refine ⟨hl, by rw [hacc]; exact hn, hu, ?_⟩
            simp only [RunResult.after, List.cons_append, List.nil_append, List.mem_cons]
            exact Or.inr (Or.inr hmem)
      | ok x =>
        obtain ⟨res, hev, hguess, hwon, hnext⟩ := runBody_ok up g (dropCR input) x hs hv
        have hacc : ∀ q, acceptedGuesses up (input :: q) = x :: acceptedGuesses up q :=
          fun q => acceptedGuesses_cons_ok up input q x hv
        by_cases hx : x = g.secretCode
        · refine ⟨_, [input],
            by simp only [runLoop, hc, if_true, hlong, if_false, hwon hx] ; rfl, ?_⟩
          have h1 : acceptedGuesses up [input] = [x] := by rw [hacc]; rfl
          refine ⟨rfl, by simpa using hin, rfl, rfl, by simp [h1], by simp [h1, hev],
            ?_, ?_, ?_⟩
          · intro p l hp
            cases p with
            | nil => simp [acceptedGuesses, hc]
            | cons a p1 =>
              simp only [List.cons_append, List.cons.injEq] at hp
              exact absurd hp.2.symm (by simp)
          · intro s n hmem
            simp only [List.mem_cons, List.mem_singleton, List.not_mem_nil, or_false] at hmem
            rcases hmem with hmem | hmem | hmem
            · cases hmem
            · cases hmem
            · cases hmem
              exact ⟨rfl, rfl, rfl⟩
          · left
            refine ⟨rfl, ⟨[], input, rfl, by rw [hv, hx]⟩, by simp⟩
        · obtain ⟨r, pre, hr, hlines, hsh, h1, h2, h3, h4, h5, h6, h7⟩ := ih
            { g with attempts := g.attempts + 1, guessHistory := g.guessHistory ++ [res] } hs
          have hcongr := evaluateGuess_congr g
            { g with attempts := g.attempts + 1, guessHistory := g.guessHistory ++ [res] } rfl
          simp only at h1 h2 h3 h4 h5 h6 h7
          have hshc : ∀ l ∈ input :: pre, l.length < MaxScanTokenSize := by
            intro l hl
            rcases List.mem_cons.mp hl with rfl | hl
            · exact hin
            · exact hsh l hl
          refine ⟨r.after _, input :: pre,
            by simp only [runLoop, hc, if_true, hlong, if_false, hnext hx, hr,
              Option.map_some'] ; rfl, ?_, hshc, h1, h2, ?_, ?_, ?_, ?_, ?_⟩
          · simp only [RunResult.after, List.cons_append]
            rw [← hlines]
          · simp only [RunResult.after, hacc, List.length_cons]
            omega
          · simp only [RunResult.after, hacc, List.filterMap_cons, hev]
            rw [h4, hcongr]
            simp
          · intro p l hp
            cases p with
            | nil => simp [acceptedGuesses, hc]
            | cons a p1 =>
              simp only [List.cons_append, List.cons.injEq] at hp
              obtain ⟨rfl, hp⟩ := hp
              have := h5 p1 l hp
              rw [hacc]
              refine ⟨by simp only [List.length_cons]; omega, ?_⟩
              simp only [List.mem_cons, not_or]
              exact ⟨fun h => hx h.symm, this.2⟩
          · intro s n hmem
            simp only [RunResult.after, List.mem_append] at hmem
            rcases hmem with hmem | hmem
            · exfalso
              by_cases hw : g.maxAttempts - g.attempts ≤ 3 <;> simp [hw] at hmem
            · exact h6 s n hmem
          · rcases h7 with ⟨hw, ⟨p, l, hp, hl⟩, hmem⟩ | ⟨hl, hn, hu, hmem⟩
            · left
              refine ⟨hw, ⟨input :: p, l, by rw [hp]; rfl, hl⟩, ?_⟩
              simp only [RunResult.after, List.mem_append, List.mem_cons]
              exact Or.inr hmem
            · right
              refine ⟨hl, ?_, hu, ?_⟩
              · rw [hacc]
                simp only [List.mem_cons, not_or]
                exact ⟨fun h => hx h.symm, hn⟩
              · simp only [RunResult.after, List.mem_append, List.mem_cons]
                exact Or.inr hmem
    · refine ⟨_, [], by simp only [runLoop, hc, if_false] ; rfl, ?_⟩
      simp [gameOver, acceptedGuesses]
      right
      omega

theorem runBody_counters (up : Nat → Nat) (g g1 : Game) (line : GoString) (out : List Output)
    (h : runBody up g line = some (Step.next g1 out) ∨
      runBody up g line = some (Step.won g1 out)) :
    g1.maxAttempts = g.maxAttempts ∧ g1.secretCode = g.secretCode ∧
      (g1.attempts = g.attempts ∨ g1.attempts = g.attempts + 1) := by
  simp only [runBody] at h
  cases hv : validateGuess up line with
  | error err =>
    simp only [hv] at h
    rcases h with h | h
    · simp only [Option.some.injEq, Step.next.injEq] at h
      obtain ⟨rfl, _⟩ := h
      exact ⟨rfl, rfl, Or.inl rfl⟩
    · simp at h
  | ok x =>
    simp only [hv] at h
    cases hev : evaluateGuess { g with attempts := g.attempts + 1 } x with
    | none => simp [hev] at h
    | some res =>
      simp only [hev] at h
      by_cases hw : res.exactMatches = CodeLength
      · rw [if_pos hw] at h
        rcases h with h | h
        · simp at h
        · simp only [Option.some.injEq, Step.won.injEq] at h
          obtain ⟨rfl, _⟩ := h
          exact ⟨rfl, rfl, Or.inr rfl⟩
      · rw [if_neg hw] at h
        rcases h with h | h
        · simp only [Option.some.injEq, Step.next.injEq] at h
          obtain ⟨rfl, _⟩ := h
          exact ⟨rfl, rfl, Or.inr rfl⟩
        · simp at h

/-- The counter of attempts never passes the limit. -/
theorem attempts_le_of_reaches (up : Nat → Nat) (g0 g1 : Game)
    (h0 : g0.attempts ≤ g0.maxAttempts) (h : Reaches up g0 g1) :
    g1.attempts ≤ g1.maxAttempts := by
  induction h with
  | refl => exact h0
  | next _ hc hb _ =>
    obtain ⟨h1, _, h3⟩ := runBody_counters up _ _ _ _ (Or.inl hb)
    omega
  | won _ hc hb _ =>
    obtain ⟨h1, _, h3⟩ := runBody_counters up _ _ _ _ (Or.inr hb)
    omega

theorem Reaches.trans {up : Nat → Nat} {a b c : Game} (h1 : Reaches up a b)
    (h2 : Reaches up b c) : Reaches up a c := by
  induction h2 with
  | refl => exact h1
  | next _ hc hb ih => exact Reaches.next ih hc hb
  | won _ hc hb ih => exact Reaches.won ih hc hb

/-- The final state of the loop is one of the states reached from its first. -/
theorem reaches_of_runLoop (up : Nat → Nat) (lines : List GoString) :
    ∀ (g : Game) (r : RunResult), runLoop up g lines = some r → Reaches up g r.game := by
  induction lines with
  | nil =>
    intro g r h
    simp only [runLoop] at h
    split_ifs at h <;> cases h <;> exact Reaches.refl g
  | cons input rest ih =>
    intro g r h
    simp only [runLoop] at h
    by_cases hc : g.attempts < g.maxAttempts
    · rw [if_pos hc] at h
      by_cases hlong : MaxScanTokenSize ≤ input.length
      · rw [if_pos hlong] at h
        cases h
        exact Reaches.refl g
      · rw [if_neg hlong] at h
        cases hb : runBody up g (dropCR input) with
        | none => simp [hb] at h
        | some st =>
          cases st with
          | won g1 out =>
            simp only [hb, Option.some.injEq] at h
            subst h
            exact Reaches.won (Reaches.refl g) hc hb
          | next g1 out =>
            simp only [hb, Option.map_eq_some'] at h
            obtain ⟨r1, hr1, rfl⟩ := h
            exact Reaches.trans (Reaches.next (Reaches.refl g) hc hb) (ih g1 r1 hr1)
    · rw [if_neg hc] at h
      cases h
      exact Reaches.refl g

theorem scores_of_accepted (g : Game) (hs : g.secretCode.length = CodeLength)
    (xs : List GoString) (hx : ∀ x ∈ xs, x.length = CodeLength) :
    (xs.filterMap (evaluateGuess g)).map GuessResult.guess = xs := by
  induction xs with
  | nil => rfl
  | cons x rest ih =>
    have h1 := evaluateGuess_spec g x hs (hx x (by simp))
    rw [List.filterMap_cons, h1]
    simp only [List.map_cons]
    rw [ih (fun y hy => hx y (by simp [hy]))]

/-- How the loop ends, started on a fresh game: it is won exactly when the
secret is among the first `MaxAttempts` guesses accepted from the lines the
scanner can deliver. -/
theorem runLoop_won_iff (up : Nat → Nat) (secret : GoString) (lines : List GoString)
    (r : RunResult) (pre : List GoString) (hlines : lines = pre ++ r.unread)
    (hsh : ∀ l ∈ pre, l.length < MaxScanTokenSize)
    (hatt : r.game.attempts = 0 + (acceptedGuesses up pre).length)
    (h5 : ∀ p l, pre = p ++ [l] →
        0 + (acceptedGuesses up p).length < MaxAttempts ∧ secret ∉ acceptedGuesses up p)
    (h7 : (r.outcome = Outcome.won ∧
          (∃ p l, pre = p ++ [l] ∧ validateGuess up (dropCR l) = Except.ok secret) ∧
          Output.congratulations secret r.game.attempts ∈ r.output) ∨
       (r.outcome = Outcome.lost ∧ secret ∉ acceptedGuesses up pre ∧
          (scannableLines r.unread = [] ∨ MaxAttempts ≤ r.game.attempts) ∧
          Output.gameOver secret ∈ r.output)) :
    r.outcome = Outcome.won ↔
      secret ∈ (acceptedGuesses up (scannableLines lines)).take MaxAttempts := by
  have hscan : acceptedGuesses up (scannableLines lines)
      = acceptedGuesses up pre ++ acceptedGuesses up (scannableLines r.unread) := by
    conv_lhs => rw [hlines]
    rw [scannableLines_append _ _ hsh, acceptedGuesses_append]
  rcases h7 with ⟨hw, ⟨p, l, hp, hl⟩, _⟩ | ⟨hl, hn, hu, _⟩
  · refine ⟨fun _ => ?_, fun _ => hw⟩
    have hlt := (h5 p l hp).1
    have hacc : acceptedGuesses up pre = acceptedGuesses up p ++ [secret] := by
      rw [hp, acceptedGuesses_append, acceptedGuesses_cons_ok up l [] secret hl,
        acceptedGuesses_nil]
    rw [hscan, hacc, List.append_assoc, List.take_append_eq_append_take]
    apply List.mem_append_right
    obtain ⟨k, hk⟩ : ∃ k, MaxAttempts - (acceptedGuesses up p).length = k + 1 :=
      ⟨MaxAttempts - (acceptedGuesses up p).length - 1, by omega⟩
    rw [hk]
    simp
  · refine ⟨fun h => (by rw [hl] at h; cases h), fun h => absurd ?_ hn⟩
    rw [hscan, List.take_append_eq_append_take] at h
    rcases List.mem_append.mp h with h | h
    · exact List.mem_of_mem_take h
    · rcases hu with hu | hu
      · rw [hu, acceptedGuesses_nil] at h
        simp at h
      · have : MaxAttempts - (acceptedGuesses up pre).length = 0 := by omega
        rw [this] at h
        simp at h

/-- A line of `MaxScanTokenSize` bytes or more ends the loop: `scanner.Scan()`
fails on it, and the run goes to the game-over block with the state it had;
neither that line nor any line after it reaches `validateGuess`. -/
theorem runLoop_line_too_long (up : Nat → Nat) (g : Game) (line : GoString)
    (rest : List GoString) (hc : g.attempts < g.maxAttempts)
    (hlong : MaxScanTokenSize ≤ line.length) :
    runLoop up g (line :: rest) = some
      { game := g
        outcome := Outcome.lost
        output := [Output.prompt (g.attempts + 1) g.maxAttempts,
          Output.history g.guessHistory, Output.gameOver g.secretCode]
        unread := line :: rest } := by
  simp only [runLoop, hc, if_true, hlong]
  rfl

theorem dropCR_eq_self (s : GoString) (h : ∀ b ∈ s, b ≠ 0x0D) : dropCR s = s := by
  unfold dropCR
  rw [if_neg]
  intro hl
  exact h 0x0D (List.mem_of_mem_getLast? (by rw [hl]; exact rfl)) rfl

/-- A string of the byte `A` alone passes `TrimSpace` and `ToUpper` unchanged, so
`validateGuess` answers the length error unless it has `CodeLength` bytes. -/
theorem validateGuess_all_A (up : Nat → Nat) (s : GoString) (hall : ∀ b ∈ s, b = 0x41)
    (hlen : s.length ≠ CodeLength) :
    validateGuess up s = Except.error GuessError.length := by
  have hsp : IsSpace 0x41 = false := by decide
  have htrim : TrimSpace s = s := by
    cases s with
    | nil => rfl
    | cons b rest =>
      have hb : b = 0x41 := hall b (by simp)
      subst hb
      have hl : trimLeftSpace (0x41 :: rest).length (0x41 :: rest) = 0x41 :: rest := by
        simp [trimLeftSpace, DecodeRuneInString_ascii 0x41 rest (by decide), hsp]
      have hlast : (0x41 :: rest).getD ((0x41 :: rest).length - 1) 0 = 0x41 := by
        rw [List.getD_eq_getElem _ _ (by simp)]
        exact hall _ (List.getElem_mem _)
      have hr : trimRightSpace (0x41 :: rest).length (0x41 :: rest) = 0x41 :: rest := by
        have hdec : DecodeLastRuneInString (0x41 :: rest) = (0x41, 1) := by
          unfold DecodeLastRuneInString
          rw [if_neg (by simp)]
          simp only [hlast]
          rw [if_pos (by decide)]
        simp only [List.length_cons, trimRightSpace, hdec, hsp]
        simp
      simp only [TrimSpace, hl, hr]
  have hup : ToUpper up s = s := by
    have h1 : s.all (fun c => decide (c < RuneSelf)) = true := by
      rw [List.all_eq_true]
      intro b hb
      rw [hall b hb]
      decide
    have h2 : s.any (fun c => decide (0x61 ≤ c ∧ c ≤ 0x7A)) = false := by
      rw [List.any_eq_false]
      intro b hb
      rw [hall b hb]
      decide
    unfold ToUpper
    rw [if_pos h1, if_neg (by rw [h2]; exact Bool.false_ne_true)]
  simp only [validateGuess, htrim, hup]
  rw [if_pos hlen]

theorem validateGuess_long_line (up : Nat → Nat) :
    validateGuess up (dropCR (List.replicate 65536 0x41)) = Except.error GuessError.length := by
  have hall : ∀ b ∈ List.replicate 65536 0x41, b = 0x41 :=
    fun b hb => List.eq_of_mem_replicate hb
  rw [dropCR_eq_self _ (fun b hb => by rw [hall b hb]; decide)]
  apply validateGuess_all_A up _ hall
  rw [List.length_replicate]
  decide

theorem Run_long_line (up : Nat → Nat) (g : Game) (rest : List GoString)
    (hc : g.attempts < g.maxAttempts) :
    Run up g (List.replicate 65536 0x41 :: rest) = some
      { game := g
        outcome := Outcome.lost
        output := [Output.welcome, Output.prompt (g.attempts + 1) g.maxAttempts,
          Output.history g.guessHistory, Output.gameOver g.secretCode]
        unread := List.replicate 65536 0x41 :: rest } := by
  have hlong : MaxScanTokenSize ≤ (List.replicate 65536 0x41).length := by
    rw [List.length_replicate]
    decide
  simp only [Run, runLoop_line_too_long up g _ rest hc hlong, Option.map_some']
  rfl

/-- C6: in the loop of `Run`, a line on which `validateGuess` fails leaves the
whole session state (attempts counter, guess history, secret) as it was and
the session in progress: the body answers `Step.next` with the same state, and
the loop, which got the line from `scanner.Text()` (a line of standard input
of fewer than `MaxScanTokenSize` bytes, one trailing carriage return dropped),
goes on with the next line from that state, prompting again for attempt
`attempts + 1`.  `ABC` fails with the length error and `ABCZ` with the
invalid-symbol error. -/
theorem runBody_invalid_guess (upperCase : Nat → Nat) (g : Game) (line : GoString)
    (rest : List GoString) (err : GuessError)
    (hv : validateGuess upperCase line = Except.error err) :
    runBody upperCase g line = some (Step.next g [Output.invalid err]) ∧
    (∀ raw : GoString, dropCR raw = line → raw.length < MaxScanTokenSize →
      g.attempts < g.maxAttempts →
      runLoop upperCase g (raw :: rest) =
        (runLoop upperCase g rest).map (RunResult.after
          [Output.prompt (g.attempts + 1) g.maxAttempts, Output.invalid err])) ∧
    validateGuess upperCase [0x41, 0x42, 0x43] = Except.error GuessError.length ∧
    validateGuess upperCase [0x41, 0x42, 0x43, 0x5A]
      = Except.error (GuessError.invalidSymbol 0x5A) := by
  refine ⟨runBody_error upperCase g line err hv, ?_, rfl, rfl⟩
  intro raw hraw hshort hc
  have hlong : ¬ MaxScanTokenSize ≤ raw.length := by omega
  simp only [runLoop, hc, if_true, hlong, if_false, hraw,
    runBody_error upperCase g line err hv]

theorem runBody_invalid_guess_witness :
    runBody id ⟨[0x41, 0x42, 0x43, 0x44], 3, 10, [⟨[0x41, 0x41, 0x41, 0x41], 1, 0⟩]⟩
        [0x41, 0x42, 0x43]
      = some (Step.next ⟨[0x41, 0x42, 0x43, 0x44], 3, 10, [⟨[0x41, 0x41, 0x41, 0x41], 1, 0⟩]⟩
          [Output.invalid GuessError.length]) ∧
    (∀ raw : GoString, dropCR raw = [0x41, 0x42, 0x43] → raw.length < MaxScanTokenSize →
      (3 : Nat) < 10 →
      runLoop id ⟨[0x41, 0x42, 0x43, 0x44], 3, 10, [⟨[0x41, 0x41, 0x41, 0x41], 1, 0⟩]⟩
          (raw :: [[0x41, 0x42, 0x43, 0x44]]) =
        (runLoop id ⟨[0x41, 0x42, 0x43, 0x44], 3, 10, [⟨[0x41, 0x41, 0x41, 0x41], 1, 0⟩]⟩
          [[0x41, 0x42, 0x43, 0x44]]).map (RunResult.after
            [Output.prompt (3 + 1) 10, Output.invalid GuessError.length])) ∧
    validateGuess id [0x41, 0x42, 0x43] = Except.error GuessError.length ∧
    validateGuess id [0x41, 0x42, 0x43, 0x5A]
      = Except.error (GuessError.invalidSymbol 0x5A) :=
  runBody_invalid_guess id
    ⟨[0x41, 0x42, 0x43, 0x44], 3, 10, [⟨[0x41, 0x41, 0x41, 0x41], 1, 0⟩]⟩
    [0x41, 0x42, 0x43] [[0x41, 0x42, 0x43, 0x44]] GuessError.length (by decide)

/-- C7, as the code behaves: for every secret of `CodeLength` symbols and every
sequence of input lines, `Run` on a fresh game returns, and it ends in the win
branch exactly when one of the first `MaxAttempts` (10) accepted guesses equals
the secret, where the accepted guesses are those of the lines
`scanner.Scan()` delivers: the lines before the first one of
`MaxScanTokenSize` bytes or more (all the lines, when none is that long).
When the run is won, the lines split as `pre ++ line :: unread` where `line` is the first line accepted
as the secret, every line up to it was delivered, nothing after it was read,
and the attempt count, in the state and in the congratulation printed, is the
number of accepted guesses up to and including that one. -/
theorem Run_won_iff (upperCase : Nat → Nat) (secret : GoString) (lines : List GoString)
    (hs : secret.length = CodeLength) :
    ∃ r, Run upperCase ⟨secret, 0, MaxAttempts, []⟩ lines = some r ∧
      (r.outcome = Outcome.won ↔
        secret ∈ (acceptedGuesses upperCase (scannableLines lines)).take MaxAttempts) ∧
      ((∀ l ∈ lines, l.length < MaxScanTokenSize) →
        (r.outcome = Outcome.won ↔
          secret ∈ (acceptedGuesses upperCase lines).take MaxAttempts)) ∧
      (r.outcome = Outcome.won →
        ∃ pre line, lines = pre ++ line :: r.unread ∧
          (∀ l ∈ pre ++ [line], l.length < MaxScanTokenSize) ∧
          validateGuess upperCase (dropCR line) = Except.ok secret ∧
          secret ∉ acceptedGuesses upperCase pre ∧
          (acceptedGuesses upperCase pre).length < MaxAttempts ∧
          r.game.attempts = (acceptedGuesses upperCase pre).length + 1 ∧
          Output.congratulations secret ((acceptedGuesses upperCase pre).length + 1)
            ∈ r.output ∧
          ∀ s n, Output.congratulations s n ∈ r.output →
            s = secret ∧ n = (acceptedGuesses upperCase pre).length + 1) := by
  obtain ⟨r, pre, hr, hlines, hsh, h1, h2, h3, h4, h5, h6, h7⟩ :=
    runLoop_spec upperCase lines ⟨secret, 0, MaxAttempts, []⟩ hs
  simp only at h1 h2 h3 h4 h5 h6 h7
  have hiff := runLoop_won_iff upperCase secret lines r pre hlines hsh h3 h5 h7
  refine ⟨r.after [Output.welcome], by simp only [Run, hr, Option.map_some'], hiff, ?_, ?_⟩
  · intro hall
    rw [scannableLines_eq_self lines hall] at hiff
    exact hiff
  · intro hw
    rcases h7 with ⟨_, ⟨p, l, hp, hl⟩, hmem⟩ | ⟨hlost, _⟩
    · have hacc : acceptedGuesses upperCase pre
          = acceptedGuesses upperCase p ++ [secret] := by
        rw [hp, acceptedGuesses_append, acceptedGuesses_cons_ok upperCase l [] secret hl,
          acceptedGuesses_nil]
      have hatt : r.game.attempts = (acceptedGuesses upperCase p).length + 1 := by
        rw [h3, hacc]
        simp
      have h5p := h5 p l hp
      refine ⟨p, l, ?_, by rw [← hp]; exact hsh, hl, h5p.2, by omega, hatt, ?_, ?_⟩
      · simp only [RunResult.after]
        rw [hlines, hp, List.append_assoc]
        rfl
      · rw [← hatt]
        simp only [RunResult.after, List.cons_append, List.nil_append, List.mem_cons]
        exact Or.inr hmem
      · intro s n hsn
        simp only [RunResult.after, List.cons_append, List.nil_append, List.mem_cons] at hsn
        rcases hsn with hsn | hsn
        · cases hsn
        · have := h6 s n hsn
          exact ⟨this.2.1, by rw [this.2.2, hatt]⟩
    · simp only [RunResult.after] at hw
      rw [hlost] at hw
      cases hw

theorem Run_won_iff_witness :
    ∃ r, Run id ⟨[0x41, 0x42, 0x43, 0x44], 0, MaxAttempts, []⟩
        [[0x41, 0x42], [0x41, 0x41, 0x41, 0x41], [0x61, 0x62, 0x63, 0x64, 0x0D], [0x42]]
          = some r ∧
      (r.outcome = Outcome.won ↔
        [0x41, 0x42, 0x43, 0x44] ∈ (acceptedGuesses id (scannableLines
          [[0x41, 0x42], [0x41, 0x41, 0x41, 0x41], [0x61, 0x62, 0x63, 0x64, 0x0D],
            [0x42]])).take MaxAttempts) ∧
      ((∀ l ∈ ([[0x41, 0x42], [0x41, 0x41, 0x41, 0x41], [0x61, 0x62, 0x63, 0x64, 0x0D],
            [0x42]] : List GoString), l.length < MaxScanTokenSize) →
        (r.outcome = Outcome.won ↔
          [0x41, 0x42, 0x43, 0x44] ∈ (acceptedGuesses id
            [[0x41, 0x42], [0x41, 0x41, 0x41, 0x41], [0x61, 0x62, 0x63, 0x64, 0x0D],
              [0x42]]).take MaxAttempts)) ∧
      (r.outcome = Outcome.won →
        ∃ pre line,
          [[0x41, 0x42], [0x41, 0x41, 0x41, 0x41], [0x61, 0x62, 0x63, 0x64, 0x0D], [0x42]]
            = pre ++ line :: r.unread ∧
          (∀ l ∈ pre ++ [line], l.length < MaxScanTokenSize) ∧
          validateGuess id (dropCR line) = Except.ok [0x41, 0x42, 0x43, 0x44] ∧
          [0x41, 0x42, 0x43, 0x44] ∉ acceptedGuesses id pre ∧
          (acceptedGuesses id pre).length < MaxAttempts ∧
          r.game.attempts = (acceptedGuesses id pre).length + 1 ∧
          Output.congratulations [0x41, 0x42, 0x43, 0x44] ((acceptedGuesses id pre).length + 1)
            ∈ r.output ∧
          ∀ s n, Output.congratulations s n ∈ r.output →
            s = [0x41, 0x42, 0x43, 0x44] ∧ n = (acceptedGuesses id pre).length + 1) :=
  Run_won_iff id [0x41, 0x42, 0x43, 0x44]
    [[0x41, 0x42], [0x41, 0x41, 0x41, 0x41], [0x61, 0x62, 0x63, 0x64, 0x0D], [0x42]]
    (by decide)

/-- C7 as stated fails: when the first input line has 65536 bytes, the second
line `ABCD` is a valid guess equal to the secret `ABCD`, the first accepted
guess of the input, yet `scanner.Scan()` fails on the first line and `Run`
ends in the game-over block with no attempt used. -/
theorem Run_not_won_after_long_line :
    ([0x41, 0x42, 0x43, 0x44] : GoString) ∈
        (acceptedGuesses id
          [List.replicate 65536 0x41, [0x41, 0x42, 0x43, 0x44]]).take MaxAttempts ∧
    ∃ r, Run id ⟨[0x41, 0x42, 0x43, 0x44], 0, MaxAttempts, []⟩
          [List.replicate 65536 0x41, [0x41, 0x42, 0x43, 0x44]] = some r ∧
      r.outcome = Outcome.lost ∧ r.outcome ≠ Outcome.won ∧ r.game.attempts = 0 := by
  constructor
  · rw [acceptedGuesses_cons_error id _ _ GuessError.length (validateGuess_long_line id)]
    decide
  · exact ⟨_, Run_long_line id _ _ (by decide), rfl, by decide, rfl⟩

/-- C8, as the code behaves: for every secret of `CodeLength` symbols and every
sequence of input lines whose first `MaxAttempts` (10) accepted guesses exist
and all differ from the secret, where the accepted guesses are those of the
lines `scanner.Scan()` delivers (the lines before the first one of
`MaxScanTokenSize` bytes or more), `Run` on a fresh game ends in the game-over
block with `attempts = MaxAttempts` and a history of exactly `MaxAttempts`
results, the scores of those guesses in the order they were made; the last
line read is the one that held the tenth accepted guess.  And in every run, from every state with
`attempts ≤ maxAttempts`, every state the loop passes through has
`attempts ≤ maxAttempts`. -/
theorem Run_lost_after_max_attempts (upperCase : Nat → Nat) (secret : GoString)
    (lines : List GoString) (hs : secret.length = CodeLength)
    (hmany : MaxAttempts ≤ (acceptedGuesses upperCase (scannableLines lines)).length)
    (hwrong : ∀ x ∈ (acceptedGuesses upperCase (scannableLines lines)).take MaxAttempts,
      x ≠ secret) :
    (∃ r, Run upperCase ⟨secret, 0, MaxAttempts, []⟩ lines = some r ∧
      r.outcome = Outcome.lost ∧
      r.game.attempts = MaxAttempts ∧
      r.game.guessHistory.length = MaxAttempts ∧
      r.game.guessHistory.map GuessResult.guess
        = (acceptedGuesses upperCase (scannableLines lines)).take MaxAttempts ∧
      r.game.guessHistory
        = ((acceptedGuesses upperCase (scannableLines lines)).take MaxAttempts).filterMap
            (evaluateGuess ⟨secret, 0, MaxAttempts, []⟩) ∧
      Output.gameOver secret ∈ r.output ∧
      (∃ pre last guess, lines = pre ++ last :: r.unread ∧
        (∀ l ∈ pre ++ [last], l.length < MaxScanTokenSize) ∧
        validateGuess upperCase (dropCR last) = Except.ok guess ∧
        (acceptedGuesses upperCase pre).length + 1 = MaxAttempts) ∧
      Reaches upperCase ⟨secret, 0, MaxAttempts, []⟩ r.game) ∧
    (∀ (up : Nat → Nat) (g0 g1 : Game), g0.attempts ≤ g0.maxAttempts →
      Reaches up g0 g1 → g1.attempts ≤ g1.maxAttempts) := by
  refine ⟨?_, fun up g0 g1 h0 h => attempts_le_of_reaches up g0 g1 h0 h⟩
  obtain ⟨r, pre, hr, hlines, hsh, h1, h2, h3, h4, h5, h6, h7⟩ :=
    runLoop_spec upperCase lines ⟨secret, 0, MaxAttempts, []⟩ hs
  simp only at h1 h2 h3 h4 h5 h6 h7
  have hiff := runLoop_won_iff upperCase secret lines r pre hlines hsh h3 h5 h7
  have hreach := reaches_of_runLoop upperCase lines _ r hr
  rcases h7 with ⟨hw, _⟩ | ⟨hlost, hn, hu, hmem⟩
  · exact absurd rfl (hwrong secret (hiff.mp hw))
  · have hsplit : acceptedGuesses upperCase (scannableLines lines)
        = acceptedGuesses upperCase pre
          ++ acceptedGuesses upperCase (scannableLines r.unread) := by
      conv_lhs => rw [hlines]
      rw [scannableLines_append _ _ hsh, acceptedGuesses_append]
    have hge : MaxAttempts ≤ (acceptedGuesses upperCase pre).length := by
      rcases hu with hu | hu
      · rw [hsplit, hu, acceptedGuesses_nil, List.append_nil] at hmany
        exact hmany
      · omega
    have hpre : pre ≠ [] := by
      intro h
      rw [h, acceptedGuesses_nil] at hge
      simp [MaxAttempts] at hge
    obtain ⟨p, l, hp⟩ : ∃ p l, pre = p ++ [l] := by
      rcases List.eq_nil_or_concat pre with h | ⟨p, l, h⟩
      · exact absurd h hpre
      · exact ⟨p, l, by rw [h, List.concat_eq_append]⟩
    have hlt := (h5 p l hp).1
    have hpl : acceptedGuesses upperCase pre
        = acceptedGuesses upperCase p ++ acceptedGuesses upperCase [l] := by
      rw [hp]
      exact acceptedGuesses_append upperCase p [l]
    obtain ⟨guess, hl⟩ : ∃ guess, validateGuess upperCase (dropCR l) = Except.ok guess := by
      cases hv : validateGuess upperCase (dropCR l) with
      | ok guess => exact ⟨guess, rfl⟩
      | error err =>
        rw [hpl, acceptedGuesses_cons_error upperCase l [] err hv, acceptedGuesses_nil,
          List.append_nil] at hge
        omega
    have hlen : (acceptedGuesses upperCase pre).length = MaxAttempts := by
      have : (acceptedGuesses upperCase pre).length
          = (acceptedGuesses upperCase p).length + 1 := by
        rw [hpl, acceptedGuesses_cons_ok upperCase l [] guess hl, acceptedGuesses_nil]
        simp
      omega
    have htake : (acceptedGuesses upperCase (scannableLines lines)).take MaxAttempts
        = acceptedGuesses upperCase pre := by
      rw [hsplit]
      exact List.take_left' hlen
    have hhist : r.game.guessHistory
        = (acceptedGuesses upperCase pre).filterMap
            (evaluateGuess ⟨secret, 0, MaxAttempts, []⟩) := by
      rw [h4, List.nil_append]
    have hguess := scores_of_accepted ⟨secret, 0, MaxAttempts, []⟩ hs
      (acceptedGuesses upperCase pre)
      (fun x hx => length_of_mem_acceptedGuesses upperCase pre x hx)
    refine ⟨r.after [Output.welcome], by simp only [Run, hr, Option.map_some'], hlost,
      by simp only [RunResult.after]; omega, ?_, ?_, ?_, ?_, ?_, hreach⟩
    · have hl2 := congrArg List.length hguess
      rw [List.length_map] at hl2
      simp only [RunResult.after]
      rw [hhist, hl2, hlen]
    · simp only [RunResult.after]
      rw [htake, hhist, hguess]
    · simp only [RunResult.after]
      rw [htake, hhist]
    · simp only [RunResult.after, List.cons_append, List.nil_append, List.mem_cons]
      exact Or.inr hmem
    · refine ⟨p, l, guess, ?_, by rw [← hp]; exact hsh, hl, ?_⟩
      · simp only [RunResult.after]
        rw [hlines, hp, List.append_assoc]
        rfl
      · have : (acceptedGuesses upperCase pre).length
            = (acceptedGuesses upperCase p).length + 1 := by
          rw [hpl, acceptedGuesses_cons_ok upperCase l [] guess hl, acceptedGuesses_nil]
          simp
        omega

set_option maxRecDepth 8000 in
theorem Run_lost_after_max_attempts_witness :
    (∃ r, Run id ⟨[0x41, 0x42, 0x43, 0x44], 0, MaxAttempts, []⟩
        (List.replicate 10 [0x41, 0x41, 0x41, 0x41] ++ [[0x41, 0x42, 0x43, 0x44]]) = some r ∧
      r.outcome = Outcome.lost ∧
      r.game.attempts = MaxAttempts ∧
      r.game.guessHistory.length = MaxAttempts ∧
      r.game.guessHistory.map GuessResult.guess
        = (acceptedGuesses id (scannableLines
            (List.replicate 10 [0x41, 0x41, 0x41, 0x41] ++ [[0x41, 0x42, 0x43, 0x44]]))).take
              MaxAttempts ∧
      r.game.guessHistory
        = ((acceptedGuesses id (scannableLines
            (List.replicate 10 [0x41, 0x41, 0x41, 0x41] ++ [[0x41, 0x42, 0x43, 0x44]]))).take
              MaxAttempts).filterMap
            (evaluateGuess ⟨[0x41, 0x42, 0x43, 0x44], 0, MaxAttempts, []⟩) ∧
      Output.gameOver [0x41, 0x42, 0x43, 0x44] ∈ r.output ∧
      (∃ pre last guess,
        List.replicate 10 [0x41, 0x41, 0x41, 0x41] ++ [[0x41, 0x42, 0x43, 0x44]]
          = pre ++ last :: r.unread ∧
        (∀ l ∈ pre ++ [last], l.length < MaxScanTokenSize) ∧
        validateGuess id (dropCR last) = Except.ok guess ∧
        (acceptedGuesses id pre).length + 1 = MaxAttempts) ∧
      Reaches id ⟨[0x41, 0x42, 0x43, 0x44], 0, MaxAttempts, []⟩ r.game) ∧
    (∀ (up : Nat → Nat) (g0 g1 : Game), g0.attempts ≤ g0.maxAttempts →
      Reaches up g0 g1 → g1.attempts ≤ g1.maxAttempts) :=
  Run_lost_after_max_attempts id [0x41, 0x42, 0x43, 0x44]
    (List.replicate 10 [0x41, 0x41, 0x41, 0x41] ++ [[0x41, 0x42, 0x43, 0x44]])
    (by decide) (by decide) (by decide)

/-- C8 as stated fails: when the first input line has 65536 bytes and ten lines
`AAAA` follow, the input holds ten accepted guesses, all different from the
secret `ABCD`, yet `scanner.Scan()` fails on the first line and `Run` ends in
the game-over block with no attempt used and an empty history. -/
theorem Run_not_max_attempts_after_long_line :
    MaxAttempts ≤ (acceptedGuesses id
        (List.replicate 65536 0x41 :: List.replicate 10 [0x41, 0x41, 0x41, 0x41])).length ∧
    (∀ x ∈ (acceptedGuesses id
        (List.replicate 65536 0x41 :: List.replicate 10 [0x41, 0x41, 0x41, 0x41])).take
          MaxAttempts, x ≠ [0x41, 0x42, 0x43, 0x44]) ∧
    ∃ r, Run id ⟨[0x41, 0x42, 0x43, 0x44], 0, MaxAttempts, []⟩
          (List.replicate 65536 0x41 :: List.replicate 10 [0x41, 0x41, 0x41, 0x41]) = some r ∧
      r.outcome = Outcome.lost ∧ r.game.attempts = 0 ∧ r.game.attempts ≠ MaxAttempts ∧
      r.game.guessHistory = [] := by
  have hacc : acceptedGuesses id
      (List.replicate 65536 0x41 :: List.replicate 10 [0x41, 0x41, 0x41, 0x41])
      = List.replicate 10 [0x41, 0x41, 0x41, 0x41] := by
    rw [acceptedGuesses_cons_error id _ _ GuessError.length (validateGuess_long_line id)]
    decide
  refine ⟨?_, ?_, _, Run_long_line id _ _ (by decide), rfl, rfl, by decide, rfl⟩
  · rw [hacc]
    decide
  · rw [hacc]
    decide

/-- C10, as the code behaves: whenever the body of the loop of `Run`, after an
accepted, non-winning guess, prints the warning `Only n attempts remaining!`,
the number `n` (`remaining - 1` with `remaining = maxAttempts - attempts`
taken before the guess was counted) is exactly the number of attempts left
once the guess is counted, `maxAttempts - attempts` of the new state. -/
theorem warning_is_attempts_left (upperCase : Nat → Nat) (g g1 : Game) (line : GoString)
    (out : List Output) (n : Nat) (hc : g.attempts < g.maxAttempts)
    (hb : runBody upperCase g line = some (Step.next g1 out))
    (hw : Output.warning n ∈ out) :
    n = g.maxAttempts - g.attempts - 1 ∧ g1.attempts = g.attempts + 1 ∧
      g1.maxAttempts = g.maxAttempts ∧ n = g1.maxAttempts - g1.attempts ∧
      n + g1.attempts = g1.maxAttempts := by
  simp only [runBody] at hb
  cases hv : validateGuess upperCase line with
  | error err =>
    simp only [hv, Option.some.injEq, Step.next.injEq] at hb
    obtain ⟨_, rfl⟩ := hb
    simp at hw
  | ok x =>
    simp only [hv] at hb
    cases hev : evaluateGuess { g with attempts := g.attempts + 1 } x with
    | none => simp [hev] at hb
    | some res =>
      simp only [hev] at hb
      by_cases hwin : res.exactMatches = CodeLength
      · rw [if_pos hwin] at hb
        simp at hb
      · rw [if_neg hwin] at hb
        simp only [Option.some.injEq, Step.next.injEq] at hb
        obtain ⟨rfl, rfl⟩ := hb
        by_cases hrem : g.maxAttempts - g.attempts ≤ 3
        · simp [hrem] at hw
          subst hw
          simp only
          exact ⟨trivial, trivial, trivial, by omega, by omega⟩
        · simp [hrem] at hw

theorem warning_is_attempts_left_witness :
    2 = 10 - 7 - 1 ∧ 8 = 7 + 1 ∧ 10 = 10 ∧ 2 = 10 - 8 ∧ 2 + 8 = 10 :=
  warning_is_attempts_left id ⟨[0x41, 0x42, 0x43, 0x44], 7, 10, []⟩
    ⟨[0x41, 0x42, 0x43, 0x44], 8, 10, [⟨[0x41, 0x41, 0x41, 0x41], 1, 0⟩]⟩
    [0x41, 0x41, 0x41, 0x41]
    [Output.history [⟨[0x41, 0x41, 0x41, 0x41], 1, 0⟩], Output.encouragement 1 8,
      Output.warning 2, Output.blank] 2 (by decide) (by decide) (by decide)

/-- C10 as stated fails: with 7 attempts used of 10, after the accepted
non-winning guess `AAAA` against `ABCD` the loop prints `Only 2 attempts
remaining!` and the player has `10 - 8 = 2` attempts left, not 3. -/
theorem warning_does_not_undercount :
    ¬ ∀ (g g1 : Game) (line : GoString) (out : List Output) (n : Nat),
      g.attempts < g.maxAttempts → runBody id g line = some (Step.next g1 out) →
      Output.warning n ∈ out → n + 1 = g1.maxAttempts - g1.attempts := by
  intro h
  have := h ⟨[0x41, 0x42, 0x43, 0x44], 7, 10, []⟩
    ⟨[0x41, 0x42, 0x43, 0x44], 8, 10, [⟨[0x41, 0x41, 0x41, 0x41], 1, 0⟩]⟩
    [0x41, 0x41, 0x41, 0x41]
    [Output.history [⟨[0x41, 0x41, 0x41, 0x41], 1, 0⟩], Output.encouragement 1 8,
      Output.warning 2, Output.blank] 2 (by decide) (by decide) (by decide)
  simp at this

/-! ### `NewGame` -/

/-- A game made by `NewGame` is fresh: a secret of `CodeLength` symbols of the
alphabet, no attempt used, the limit `MaxAttempts`, an empty history. -/
theorem NewGame_fresh (draws : Nat → Nat) (hd : ∀ i, draws i < AvailableSymbols.length) :
    NewGame draws = ⟨generateSecretCode draws, 0, MaxAttempts, []⟩ ∧
      (generateSecretCode draws).length = CodeLength ∧
      ∀ b ∈ generateSecretCode draws, b ∈ AvailableSymbols := by
  refine ⟨rfl, by simp [generateSecretCode], ?_⟩
  intro b hb
  simp only [generateSecretCode, List.mem_map] at hb
  obtain ⟨i, _, rfl⟩ := hb
  rw [List.getD_eq_getElem _ _ (hd i)]
  exact List.getElem_mem _

end CipherMind
